import Mathlib

/-
Verification of the ziggba font-packing tool (assets/font.py).

The script slices an image region into fixed-size glyph cells, computes for
each cell a tight ink bounding box, per-edge-column ink extents and row
bitmasks (class Char), and packs the glyphs into a header table followed by
a bitmap region (pack_font).  The image is modelled as an ink test
`Int → Int → Bool`; Python exceptions (ValueError from the 12x12 check and
from bytes() range checks, AssertionError from assert statements) are
modelled with Except.
-/

namespace FontPack

/-- The pixel truthiness test `im_pixels[x, y]` of the source image. -/
abbrev Pix := Int → Int → Bool

/-- Python `range(a, b)` over integers, in increasing order. -/
def intRange (a b : Int) : List Int :=
  (List.range (b - a).toNat).map (fun (i : Nat) => a + (i : Int))

/-- Errors raised by the Python code: `raise ValueError(...)` and failed
`assert` statements (and the range check of `bytes(...)`, also a ValueError). -/
inductive PyErr where
  | valueError (msg : String)
  | assertionError
deriving DecidableEq

/-- Accumulator of the bounding-box scan in `Char.__init__` (fields
`self.x_min`, `self.x_max`, `self.y_min`, `self.y_max`). -/
structure BBox where
  x_min : Int
  x_max : Int
  y_min : Int
  y_max : Int
deriving DecidableEq

/-- One step of the bounding-box scan: on an ink pixel, tighten the box. -/
def bboxStep (ink : Pix) (b : BBox) (p : Int × Int) : BBox :=
  if ink p.1 p.2 then
    ⟨min b.x_min p.1, max b.x_max (p.1 + 1), min b.y_min p.2, max b.y_max (p.2 + 1)⟩
  else b

/-- All pixels of a cell, in the nested-loop order of `Char.__init__`
(`px_x` outer, `px_y` inner). -/
def cellPixels (x0 y0 xM yM : Int) : List (Int × Int) :=
  (intRange x0 xM).flatMap (fun px => (intRange y0 yM).map (fun py => (px, py)))

/-- The bounding-box scan of `Char.__init__` lines 73-79, with the
initial values of lines 64-67. -/
def scanBBox (ink : Pix) (x0 y0 xM yM : Int) : BBox :=
  (cellPixels x0 y0 xM yM).foldl (bboxStep ink) ⟨xM, x0, yM, y0⟩

/-- One step of an edge-column scan: on an ink pixel of the column, widen
the (min, max-exclusive) extent. -/
def colStep (ink : Pix) (col : Int) (s : Int × Int) (py : Int) : Int × Int :=
  if ink col py then (min s.1 py, max s.2 (py + 1)) else s

/-- The edge-column scan of `Char.__init__` lines 82-85 (and 86-89): the
vertical ink extent of column `col`, starting from the defaults
`(im_rect_y_max, im_rect_y)` of lines 68-71. -/
def scanColExtent (ink : Pix) (col y0 yM : Int) : Int × Int :=
  (intRange y0 yM).foldl (colStep ink col) (yM, y0)

/-- One step of the row-bitmask loop body (lines 105-108): the state is
`(row, i)`; an ink pixel sets bit `i` of `row`, and `i` always increments. -/
def rowStep (ink : Pix) (py : Int) (s : Nat × Nat) (px : Int) : Nat × Nat :=
  ((if ink px py then s.1 ||| (1 <<< s.2) else s.1), s.2 + 1)

/-- The row bitmask of one glyph row (lines 102-108): bit `i` is set iff
the pixel at column `x_min + i` of row `py` has ink. -/
def rowOf (ink : Pix) (a b py : Int) : Nat :=
  ((intRange a b).foldl (rowStep ink py) (0, 0)).1

/-- The `self.rows` list (lines 102-109): one bitmask per row of the ink box. -/
def mkRows (ink : Pix) (a b c d : Int) : List Nat :=
  (intRange c d).map (fun py => rowOf ink a b py)

/-- The extracted glyph record: the fields of Python class `Char`. -/
structure Char where
  im_rect_x : Int
  im_rect_y : Int
  im_rect_x_size : Int
  im_rect_y_size : Int
  im_rect_x_max : Int
  im_rect_y_max : Int
  x_min : Int
  x_max : Int
  y_min : Int
  y_max : Int
  y_min_first : Int
  y_max_first : Int
  y_min_last : Int
  y_max_last : Int
  rows : List Nat
deriving DecidableEq

instance : Inhabited Char := ⟨⟨0, 0, 0, 0, 0, 0, 0, 0, 0, 0, 0, 0, 0, 0, []⟩⟩

/-- `Char.__init__(im_pixels, im_rect)`: scans the cell, returns early for
blank cells (keeping the initial accumulator values, lines 80-81), otherwise
scans the two edge columns, raises ValueError when the ink box exceeds 12x12
(lines 90-94), checks the asserts of lines 95-101, and builds the rows. -/
def mkChar (ink : Pix) (x0 y0 sx sy : Int) : Except PyErr Char :=
  let xM := x0 + sx
  let yM := y0 + sy
  let bb := scanBBox ink x0 y0 xM yM
  if bb.x_max ≤ bb.x_min then
    .ok ⟨x0, y0, sx, sy, xM, yM, bb.x_min, bb.x_max, bb.y_min, bb.y_max,
         yM, y0, yM, y0, []⟩
  else
    let fe := scanColExtent ink bb.x_min y0 yM
    let le := scanColExtent ink (bb.x_max - 1) y0 yM
    if 12 < bb.x_max - bb.x_min ∨ 12 < bb.y_max - bb.y_min then
      .error (.valueError "Maximum allowed character size is 12x12 pixels.")
    else if (0 ≤ bb.x_max - bb.x_min ∧ bb.x_max - bb.x_min < 16) ∧
            (0 ≤ bb.y_max - bb.y_min ∧ bb.y_max - bb.y_min < 16) ∧
            (0 ≤ fe.1 - bb.y_min ∧ fe.1 - bb.y_min < 16) ∧
            (0 ≤ fe.2 - bb.y_min ∧ fe.2 - bb.y_min < 16) ∧
            (0 ≤ le.1 - bb.y_min ∧ le.1 - bb.y_min < 16) ∧
            (0 ≤ le.2 - bb.y_min ∧ le.2 - bb.y_min < 16) ∧
            (0 ≤ bb.y_min - y0 ∧ bb.y_min - y0 < 16) then
      .ok ⟨x0, y0, sx, sy, xM, yM, bb.x_min, bb.x_max, bb.y_min, bb.y_max,
           fe.1, fe.2, le.1, le.2, mkRows ink bb.x_min bb.x_max bb.y_min bb.y_max⟩
    else
      .error .assertionError

/-- `Char.is_blank` (lines 111-112). -/
def Char.is_blank (c : Char) : Bool :=
  decide (c.x_max ≤ c.x_min) || decide (c.y_max ≤ c.y_min)

/-- `Char.encode_header` (lines 114-141): the two metadata bytes of a glyph
record (the size nibble pair and the y-offset-and-flags byte).  Python's
`bytes(b)` range check happens in `pack` below. -/
def Char.encode_header (c : Char) : List Nat :=
  [ (max 0 (c.x_max - c.x_min)).toNat ||| ((max 0 (c.y_max - c.y_min)).toNat <<< 4),
    (max 0 (c.y_min - c.im_rect_y)).toNat
      ||| ((if c.y_min_last - c.im_rect_y ≤ 5 ∧ c.y_min_last = c.y_max_last - 1
            then 1 else 0) <<< 4)
      ||| ((if 5 < c.y_min_first - c.im_rect_y then 1 else 0) <<< 5)
      ||| ((if 9 ≤ c.y_min_first - c.im_rect_y ∧ c.y_min_first = c.y_max_first - 1
            then 1 else 0) <<< 6)
      ||| ((if c.y_max_last - c.im_rect_y < 9 then 1 else 0) <<< 7) ]

/-- `Char.encode_rows` (lines 143-148): each row packed little-endian, two
bytes per row when the glyph is wider than 8 pixels, else one byte.  For
glyphs produced by `mkChar` each row value fits the chosen size (proved
below), so the truncating mods agree with `struct.pack`. -/
def Char.encode_rows (c : Char) : List Nat :=
  if 8 < c.x_max - c.x_min then
    c.rows.flatMap (fun r => [r % 256, r / 256])
  else
    c.rows.map (fun r => r % 256)

/-- The loop of `pack_font` lines 35-44, processing the glyph list with the
accumulated header bytes and bitmap bytes.  A byte value out of range 0-255
makes Python's `bytes(...)` raise ValueError; in particular an offset of
65536 or more overflows its high byte. -/
def packStep (hlen : Nat) : List Char → List Nat → List Nat → Except PyErr (List Nat × List Nat)
  | [], hdrs, rws => .ok (hdrs, rws)
  | ch :: rest, hdrs, rws =>
    let off : Nat := if ch.is_blank then 0 else rws.length + hlen
    let rws' := if ch.is_blank then rws else rws ++ ch.encode_rows
    let hb := ch.encode_header ++ [off % 256, off / 256]
    if hb.all (fun b => decide (b < 256)) then packStep hlen rest (hdrs ++ hb) rws'
    else .error (.valueError "bytes must be in range 0..255")

/-- `pack_font` lines 32-54 without file IO: header region then bitmap
region, with the `assert(len(ch_headers) == ch_headers_len)` of line 45. -/
def pack (chars : List Char) : Except PyErr (List Nat) :=
  match packStep (4 * chars.length) chars [] [] with
  | .error e => .error e
  | .ok s =>
    if s.1.length = 4 * chars.length then .ok (s.1 ++ s.2)
    else .error .assertionError

/-- Cell origins of the grid traversal of `pack_font` lines 24-31:
row-major, `ch_y` outer and `ch_x` inner. -/
def cellRects (rx ry csx csy : Int) (nx ny : Nat) : List (Int × Int) :=
  (List.range ny).flatMap (fun (chy : Nat) =>
    (List.range nx).map (fun (chx : Nat) => (rx + (chx : Int) * csx, ry + (chy : Int) * csy)))

/-- Sequential construction of the `ch_list` of `pack_font`: the first
failing cell aborts the run. -/
def extractCells (ink : Pix) (csx csy : Int) : List (Int × Int) → Except PyErr (List Char)
  | [] => .ok []
  | p :: rest =>
    (mkChar ink p.1 p.2 csx csy).bind (fun c =>
      (extractCells ink csx csy rest).map (fun l => c :: l))

/-- Glyph extraction (lines 19-31): `ch_count_x = floor(size_x / cell_x)`,
`ch_count_y = floor(size_y / cell_y)` (Python floor division for the
positive divisors used), cells visited row-major. -/
def extract (ink : Pix) (rx ry rsx rsy csx csy : Int) : Except PyErr (List Char) :=
  extractCells ink csx csy
    (cellRects rx ry csx csy (rsx.fdiv csx).toNat (rsy.fdiv csy).toNat)

/-- The whole run of `pack_font` on one region: extraction then packing. -/
def pack_font_core (ink : Pix) (rx ry rsx rsy csx csy : Int) : Except PyErr (List Nat) :=
  (extract ink rx ry rsx rsy csx csy).bind pack

/-- Whether an Except value is a success. -/
def isOkE {ε α : Type} : Except ε α → Bool
  | .ok _ => true
  | .error _ => false

/-- Total encoded bitmap length of the first `i` glyphs: sum of the encoded
row-bitmap lengths of the non-blank ones among them. -/
def bitmapLenBefore : List Char → Nat → Nat
  | _, 0 => 0
  | [], _ + 1 => 0
  | c :: rest, i + 1 =>
    (if c.is_blank then 0 else c.encode_rows.length) + bitmapLenBefore rest i

/-- The bitmap region: encoded row bitmaps of the non-blank glyphs in order. -/
def bitmapBytes (chars : List Char) : List Nat :=
  (chars.filter (fun c => !c.is_blank)).flatMap Char.encode_rows

/-- The bitmap offset recorded for glyph `i`: zero for a blank glyph, else
the header region size plus the bitmap bytes of the earlier non-blank glyphs. -/
def offsetOf (chars : List Char) (i : Nat) : Nat :=
  if (chars.getD i default).is_blank then 0
  else 4 * chars.length + bitmapLenBefore chars i

/-- Generalisation of `offsetOf` to a running bitmap length `base`, matching
the loop state of `packStep`. -/
def offsetAux (hlen base : Nat) (chars : List Char) (i : Nat) : Nat :=
  if (chars.getD i default).is_blank then 0
  else base + hlen + bitmapLenBefore chars i

/-- The header region produced from a glyph list, given the header region
size and the current bitmap length. -/
def headerBytes (hlen : Nat) : Nat → List Char → List Nat
  | _, [] => []
  | base, ch :: rest =>
    (ch.encode_header ++ [(if ch.is_blank then 0 else base + hlen) % 256,
                          (if ch.is_blank then 0 else base + hlen) / 256])
      ++ headerBytes hlen (base + if ch.is_blank then 0 else ch.encode_rows.length) rest

/-- Decoder for the packed row bitmap, following the output format: one
byte per row for narrow glyphs, else two bytes little-endian. -/
def decodeRows : Bool → List Nat → List Nat
  | false, bs => bs
  | true, b0 :: b1 :: rest => (b0 + 256 * b1) :: decodeRows true rest
  | true, [b0] => [b0]
  | true, [] => []

/-- The glyph of a fully blank 16x16 cell at origin (0, 0): the bounding box
keeps its initial inverted values, and so do the edge extents. -/
def blankChar16 : Char := ⟨0, 0, 16, 16, 16, 16, 16, 0, 16, 0, 16, 0, 16, 0, []⟩

/-- A 1x1 glyph with a single ink pixel at the cell origin (cell 1x1 at
origin (0, 0)). -/
def nbC : Char := ⟨0, 0, 1, 1, 1, 1, 0, 1, 0, 1, 0, 1, 0, 1, [1]⟩

/-- The glyph of an 8x12 cell at origin (0, 0) with a single ink pixel at (0, 0). -/
def pixChar : Char := ⟨0, 0, 8, 12, 8, 12, 0, 1, 0, 1, 0, 1, 0, 1, [1]⟩

/-- The glyph of a 12x12 cell at origin (0, 0) whose top row has ink in
columns 0 through 8: width 9, so each packed row needs two bytes. -/
def wideChar9 : Char := ⟨0, 0, 12, 12, 12, 12, 0, 9, 0, 1, 0, 1, 0, 1, [511]⟩

/-- The four blank glyphs of a 4x4 region sliced into 2x2 cells, row-major. -/
def cellA : Char := ⟨0, 0, 2, 2, 2, 2, 2, 0, 2, 0, 2, 0, 2, 0, []⟩

/-- Second glyph of the 2x2 grid: cell origin (2, 0). -/
def cellB : Char := ⟨2, 0, 2, 2, 4, 2, 4, 2, 2, 0, 2, 0, 2, 0, []⟩

/-- Third glyph of the 2x2 grid: cell origin (0, 2). -/
def cellC : Char := ⟨0, 2, 2, 2, 2, 4, 2, 0, 4, 2, 4, 2, 4, 2, []⟩

/-- Fourth glyph of the 2x2 grid: cell origin (2, 2). -/
def cellD : Char := ⟨2, 2, 2, 2, 4, 4, 4, 2, 4, 2, 4, 2, 4, 2, []⟩

/-- A glyph list big enough to overflow the 16-bit offset field: 16384 blank
glyphs make the header region 65540 bytes long, so the single non-blank
glyph at the end gets offset 65540. -/
def bigChars : List Char := List.replicate 16384 blankChar16 ++ [nbC]

theorem intRange_eq_nil {a b : Int} (h : b ≤ a) : intRange a b = [] := by
  have h0 : (b - a).toNat = 0 := by omega
  simp [intRange, h0]

theorem intRange_eq_cons {a b : Int} (h : a < b) :
    intRange a b = a :: intRange (a + 1) b := by
  unfold intRange
  have h1 : (b - a).toNat = (b - (a + 1)).toNat + 1 := by omega
  rw [h1, List.range_succ_eq_map, List.map_cons, List.map_map]
  refine congrArg₂ _ (by simp) (List.map_congr_left ?_)
  intro i _
  simp only [Function.comp_apply]
  push_cast
  ring

theorem intRange_length (a b : Int) : (intRange a b).length = (b - a).toNat := by
  simp [intRange]

theorem mem_intRange {x a b : Int} : x ∈ intRange a b ↔ a ≤ x ∧ x < b := by
  simp only [intRange, List.mem_map, List.mem_range]
  constructor
  · rintro ⟨i, hi, rfl⟩
    omega
  · rintro ⟨h1, h2⟩
    exact ⟨(x - a).toNat, by omega, by omega⟩

theorem foldl_skip {α β : Type} (f : β → α → β) (l : List α) (b : β)
    (h : ∀ acc, ∀ x ∈ l, f acc x = acc) : l.foldl f b = b := by
  induction l generalizing b with
  | nil => rfl
  | cons a t ih =>
    rw [List.foldl_cons, h b a (List.mem_cons_self a t)]
    exact ih b (fun acc x hx => h acc x (List.mem_cons_of_mem a hx))

theorem foldl_minf_le {α : Type} (f : α → Int) (l : List α) (a : Int) :
    l.foldl (fun m x => min m (f x)) a ≤ a := by
  induction l generalizing a with
  | nil => exact le_refl a
  | cons hd t ih => exact le_trans (ih (min a (f hd))) (min_le_left _ _)

theorem foldl_minf_le_mem {α : Type} (f : α → Int) (l : List α) (a : Int) :
    ∀ x ∈ l, l.foldl (fun m x => min m (f x)) a ≤ f x := by
  induction l generalizing a with
  | nil => intro x hx; simp at hx
  | cons hd t ih =>
    intro x hx
    rcases List.mem_cons.mp hx with rfl | hmem
    · exact le_trans (foldl_minf_le f t _) (min_le_right _ _)
    · exact ih (min a (f hd)) x hmem

theorem foldl_minf_cases {α : Type} (f : α → Int) (l : List α) (a : Int) :
    l.foldl (fun m x => min m (f x)) a = a ∨
      ∃ x ∈ l, l.foldl (fun m x => min m (f x)) a = f x := by
  induction l generalizing a with
  | nil => exact Or.inl rfl
  | cons hd t ih =>
    rw [List.foldl_cons]
    rcases ih (min a (f hd)) with h | ⟨x, hx, hh⟩
    · rw [h]
      rcases min_cases a (f hd) with ⟨he, _⟩ | ⟨he, _⟩
      · exact Or.inl he
      · exact Or.inr ⟨hd, List.mem_cons_self hd t, he⟩
    · exact Or.inr ⟨x, List.mem_cons_of_mem hd hx, hh⟩

theorem foldl_maxf_ge {α : Type} (f : α → Int) (l : List α) (a : Int) :
    a ≤ l.foldl (fun m x => max m (f x)) a := by
  induction l generalizing a with
  | nil => exact le_refl a
  | cons hd t ih => exact le_trans (le_max_left _ _) (ih (max a (f hd)))

theorem foldl_maxf_ge_mem {α : Type} (f : α → Int) (l : List α) (a : Int) :
    ∀ x ∈ l, f x ≤ l.foldl (fun m x => max m (f x)) a := by
  induction l generalizing a with
  | nil => intro x hx; simp at hx
  | cons hd t ih =>
    intro x hx
    rcases List.mem_cons.mp hx with rfl | hmem
    · exact le_trans (le_max_right _ _) (foldl_maxf_ge f t _)
    · exact ih (max a (f hd)) x hmem

theorem foldl_maxf_cases {α : Type} (f : α → Int) (l : List α) (a : Int) :
    l.foldl (fun m x => max m (f x)) a = a ∨
      ∃ x ∈ l, l.foldl (fun m x => max m (f x)) a = f x := by
  induction l generalizing a with
  | nil => exact Or.inl rfl
  | cons hd t ih =>
    rw [List.foldl_cons]
    rcases ih (max a (f hd)) with h | ⟨x, hx, hh⟩
    · rw [h]
      rcases max_cases a (f hd) with ⟨he, _⟩ | ⟨he, _⟩
      · exact Or.inl he
      · exact Or.inr ⟨hd, List.mem_cons_self hd t, he⟩
    · exact Or.inr ⟨x, List.mem_cons_of_mem hd hx, hh⟩

theorem bboxFold_eq (ink : Pix) (l : List (Int × Int)) (b : BBox) :
    l.foldl (bboxStep ink) b =
      ⟨(l.filter (fun p => ink p.1 p.2)).foldl (fun m p => min m p.1) b.x_min,
       (l.filter (fun p => ink p.1 p.2)).foldl (fun m p => max m (p.1 + 1)) b.x_max,
       (l.filter (fun p => ink p.1 p.2)).foldl (fun m p => min m p.2) b.y_min,
       (l.filter (fun p => ink p.1 p.2)).foldl (fun m p => max m (p.2 + 1)) b.y_max⟩ := by
  induction l generalizing b with
  | nil => rfl
  | cons hd t ih =>
    by_cases h : ink hd.1 hd.2
    · simp only [List.foldl_cons, List.filter_cons, h, if_pos, bboxStep, ih]
    · simp only [List.foldl_cons, List.filter_cons, h, bboxStep, ih, Bool.false_eq_true,
        if_false, ite_false]

theorem colFold_eq (ink : Pix) (col : Int) (l : List Int) (s : Int × Int) :
    l.foldl (colStep ink col) s =
      ((l.filter (fun py => ink col py)).foldl (fun m py => min m py) s.1,
       (l.filter (fun py => ink col py)).foldl (fun m py => max m (py + 1)) s.2) := by
  induction l generalizing s with
  | nil => rfl
  | cons hd t ih =>
    by_cases h : ink col hd
    · simp only [List.foldl_cons, List.filter_cons, h, if_pos, colStep, ih]
    · simp only [List.foldl_cons, List.filter_cons, h, colStep, ih, Bool.false_eq_true,
        if_false, ite_false]

theorem mem_cellPixels {p : Int × Int} {x0 y0 xM yM : Int} :
    p ∈ cellPixels x0 y0 xM yM ↔ x0 ≤ p.1 ∧ p.1 < xM ∧ y0 ≤ p.2 ∧ p.2 < yM := by
  obtain ⟨px, py⟩ := p
  simp only [cellPixels, List.mem_flatMap, List.mem_map, mem_intRange, Prod.mk.injEq]
  constructor
  · rintro ⟨a, ⟨ha1, ha2⟩, b, ⟨hb1, hb2⟩, rfl, rfl⟩
    exact ⟨ha1, ha2, hb1, hb2⟩
  · rintro ⟨h1, h2, h3, h4⟩
    exact ⟨px, ⟨h1, h2⟩, py, ⟨h3, h4⟩, rfl, rfl⟩

theorem scanBBox_no_ink {ink : Pix} {x0 y0 xM yM : Int}
    (h : ∀ px py : Int, x0 ≤ px → px < xM → y0 ≤ py → py < yM → ink px py = false) :
    scanBBox ink x0 y0 xM yM = ⟨xM, x0, yM, y0⟩ := by
  refine foldl_skip _ _ _ (fun acc p hp => ?_)
  obtain ⟨h1, h2, h3, h4⟩ := mem_cellPixels.mp hp
  simp [bboxStep, h p.1 p.2 h1 h2 h3 h4]

theorem scanBBox_ink_le {ink : Pix} {x0 y0 xM yM px py : Int}
    (h1 : x0 ≤ px) (h2 : px < xM) (h3 : y0 ≤ py) (h4 : py < yM)
    (hink : ink px py = true) :
    (scanBBox ink x0 y0 xM yM).x_min ≤ px ∧ px + 1 ≤ (scanBBox ink x0 y0 xM yM).x_max ∧
    (scanBBox ink x0 y0 xM yM).y_min ≤ py ∧ py + 1 ≤ (scanBBox ink x0 y0 xM yM).y_max := by
  have hmem : (px, py) ∈ (cellPixels x0 y0 xM yM).filter (fun p => ink p.1 p.2) :=
    List.mem_filter.mpr ⟨mem_cellPixels.mpr ⟨h1, h2, h3, h4⟩, hink⟩
  rw [scanBBox, bboxFold_eq]
  exact ⟨foldl_minf_le_mem (fun p : Int × Int => p.1) _ _ _ hmem,
         foldl_maxf_ge_mem (fun p : Int × Int => p.1 + 1) _ _ _ hmem,
         foldl_minf_le_mem (fun p : Int × Int => p.2) _ _ _ hmem,
         foldl_maxf_ge_mem (fun p : Int × Int => p.2 + 1) _ _ _ hmem⟩

theorem scanBBox_init_le (ink : Pix) (x0 y0 xM yM : Int) :
    (scanBBox ink x0 y0 xM yM).x_min ≤ xM ∧ x0 ≤ (scanBBox ink x0 y0 xM yM).x_max ∧
    (scanBBox ink x0 y0 xM yM).y_min ≤ yM ∧ y0 ≤ (scanBBox ink x0 y0 xM yM).y_max := by
  rw [scanBBox, bboxFold_eq]
  exact ⟨foldl_minf_le (fun p : Int × Int => p.1) _ _,
         foldl_maxf_ge (fun p : Int × Int => p.1 + 1) _ _,
         foldl_minf_le (fun p : Int × Int => p.2) _ _,
         foldl_maxf_ge (fun p : Int × Int => p.2 + 1) _ _⟩

theorem scanBBox_x_min_cases (ink : Pix) (x0 y0 xM yM : Int) :
    (scanBBox ink x0 y0 xM yM).x_min = xM ∨
      ∃ px py : Int, (x0 ≤ px ∧ px < xM ∧ y0 ≤ py ∧ py < yM) ∧ ink px py = true ∧
        (scanBBox ink x0 y0 xM yM).x_min = px := by
  rw [scanBBox, bboxFold_eq]
  rcases foldl_minf_cases (fun p : Int × Int => p.1) ((cellPixels x0 y0 xM yM).filter
      (fun p => ink p.1 p.2)) xM with h | ⟨x, hx, hh⟩
  · exact Or.inl h
  · obtain ⟨hmem, hink⟩ := List.mem_filter.mp hx
    exact Or.inr ⟨x.1, x.2, mem_cellPixels.mp hmem, by simpa using hink, hh⟩

theorem scanBBox_x_max_cases (ink : Pix) (x0 y0 xM yM : Int) :
    (scanBBox ink x0 y0 xM yM).x_max = x0 ∨
      ∃ px py : Int, (x0 ≤ px ∧ px < xM ∧ y0 ≤ py ∧ py < yM) ∧ ink px py = true ∧
        (scanBBox ink x0 y0 xM yM).x_max = px + 1 := by
  rw [scanBBox, bboxFold_eq]
  rcases foldl_maxf_cases (fun p : Int × Int => p.1 + 1) ((cellPixels x0 y0 xM yM).filter
      (fun p => ink p.1 p.2)) x0 with h | ⟨x, hx, hh⟩
  · exact Or.inl h
  · obtain ⟨hmem, hink⟩ := List.mem_filter.mp hx
    exact Or.inr ⟨x.1, x.2, mem_cellPixels.mp hmem, by simpa using hink, hh⟩

theorem scanBBox_y_min_cases (ink : Pix) (x0 y0 xM yM : Int) :
    (scanBBox ink x0 y0 xM yM).y_min = yM ∨
      ∃ px py : Int, (x0 ≤ px ∧ px < xM ∧ y0 ≤ py ∧ py < yM) ∧ ink px py = true ∧
        (scanBBox ink x0 y0 xM yM).y_min = py := by
  rw [scanBBox, bboxFold_eq]
  rcases foldl_minf_cases (fun p : Int × Int => p.2) ((cellPixels x0 y0 xM yM).filter
      (fun p => ink p.1 p.2)) yM with h | ⟨x, hx, hh⟩
  · exact Or.inl h
  · obtain ⟨hmem, hink⟩ := List.mem_filter.mp hx
    exact Or.inr ⟨x.1, x.2, mem_cellPixels.mp hmem, by simpa using hink, hh⟩

theorem scanBBox_y_max_cases (ink : Pix) (x0 y0 xM yM : Int) :
    (scanBBox ink x0 y0 xM yM).y_max = y0 ∨
      ∃ px py : Int, (x0 ≤ px ∧ px < xM ∧ y0 ≤ py ∧ py < yM) ∧ ink px py = true ∧
        (scanBBox ink x0 y0 xM yM).y_max = py + 1 := by
  rw [scanBBox, bboxFold_eq]
  rcases foldl_maxf_cases (fun p : Int × Int => p.2 + 1) ((cellPixels x0 y0 xM yM).filter
      (fun p => ink p.1 p.2)) y0 with h | ⟨x, hx, hh⟩
  · exact Or.inl h
  · obtain ⟨hmem, hink⟩ := List.mem_filter.mp hx
    exact Or.inr ⟨x.1, x.2, mem_cellPixels.mp hmem, by simpa using hink, hh⟩

theorem scanColExtent_no_ink {ink : Pix} {col y0 yM : Int}
    (h : ∀ py : Int, y0 ≤ py → py < yM → ink col py = false) :
    scanColExtent ink col y0 yM = (yM, y0) := by
  refine foldl_skip _ _ _ (fun acc py hpy => ?_)
  obtain ⟨h1, h2⟩ := mem_intRange.mp hpy
  simp [colStep, h py h1 h2]

theorem scanColExtent_ink_le {ink : Pix} {col y0 yM py : Int}
    (h1 : y0 ≤ py) (h2 : py < yM) (hink : ink col py = true) :
    (scanColExtent ink col y0 yM).1 ≤ py ∧ py + 1 ≤ (scanColExtent ink col y0 yM).2 := by
  have hmem : py ∈ (intRange y0 yM).filter (fun py => ink col py) :=
    List.mem_filter.mpr ⟨mem_intRange.mpr ⟨h1, h2⟩, hink⟩
  rw [scanColExtent, colFold_eq]
  exact ⟨foldl_minf_le_mem (fun py : Int => py) _ _ _ hmem,
         foldl_maxf_ge_mem (fun py : Int => py + 1) _ _ _ hmem⟩

theorem scanColExtent_fst_cases (ink : Pix) (col y0 yM : Int) :
    (scanColExtent ink col y0 yM).1 = yM ∨
      ∃ py : Int, y0 ≤ py ∧ py < yM ∧ ink col py = true ∧
        (scanColExtent ink col y0 yM).1 = py := by
  rw [scanColExtent, colFold_eq]
  rcases foldl_minf_cases (fun py : Int => py) ((intRange y0 yM).filter
      (fun py => ink col py)) yM with h | ⟨x, hx, hh⟩
  · exact Or.inl h
  · obtain ⟨hmem, hink⟩ := List.mem_filter.mp hx
    obtain ⟨ha, hb⟩ := mem_intRange.mp hmem
    exact Or.inr ⟨x, ha, hb, by simpa using hink, hh⟩

theorem scanColExtent_snd_cases (ink : Pix) (col y0 yM : Int) :
    (scanColExtent ink col y0 yM).2 = y0 ∨
      ∃ py : Int, y0 ≤ py ∧ py < yM ∧ ink col py = true ∧
        (scanColExtent ink col y0 yM).2 = py + 1 := by
  rw [scanColExtent, colFold_eq]
  rcases foldl_maxf_cases (fun py : Int => py + 1) ((intRange y0 yM).filter
      (fun py => ink col py)) y0 with h | ⟨x, hx, hh⟩
  · exact Or.inl h
  · obtain ⟨hmem, hink⟩ := List.mem_filter.mp hx
    obtain ⟨ha, hb⟩ := mem_intRange.mp hmem
    exact Or.inr ⟨x, ha, hb, by simpa using hink, hh⟩

theorem rowFold_testBit (ink : Pix) (py : Int) :
    ∀ (n : Nat) (a b : Int), b - a = (n : Int) → ∀ (r i j : Nat),
      (((intRange a b).foldl (rowStep ink py) (r, i)).1.testBit j) =
        (r.testBit j || (decide (i ≤ j) && decide (j - i < n) &&
          ink (a + ((j - i : Nat) : Int)) py)) := by
  intro n
  induction n with
  | zero =>
    intro a b hab r i j
    rw [intRange_eq_nil (by omega)]
    simp
  | succ n ih =>
    intro a b hab r i j
    rw [intRange_eq_cons (by omega : a < b), List.foldl_cons]
    have hstep : rowStep ink py (r, i) a =
        ((if ink a py then r ||| (1 <<< i) else r), i + 1) := rfl
    rw [hstep, ih (a + 1) b (by omega)]
    have hpow : (1 <<< i) = 2 ^ i := by rw [Nat.shiftLeft_eq, one_mul]
    rcases Nat.lt_trichotomy j i with hj | hj | hj
    · have h1 : decide (i ≤ j) = false := by simp; omega
      have h2 : decide (i + 1 ≤ j) = false := by simp; omega
      have h3 : (2 ^ i).testBit j = false := by
        rw [Nat.testBit_two_pow]
        simp
        omega
      cases hink : ink a py <;>
        simp [hink, h1, h2, Nat.testBit_or, hpow, h3]
    · subst hj
      have h2 : decide (j + 1 ≤ j) = false := by simp
      have h3 : (2 ^ j).testBit j = true := by
        rw [Nat.testBit_two_pow]
        simp
      have h4 : (j - j : Nat) = 0 := by omega
      cases hink : ink a py <;>
        simp [hink, h2, Nat.testBit_or, hpow, h3, h4]
    · have h1 : decide (i ≤ j) = true := by simp; omega
      have h2 : decide (i + 1 ≤ j) = true := by simp; omega
      have h3 : (2 ^ i).testBit j = false := by
        rw [Nat.testBit_two_pow]
        simp
        omega
      have h4 : decide (j - (i + 1) < n) = decide (j - i < n + 1) := by
        rcases Nat.lt_or_ge (j - (i + 1)) n with hlt | hge
        · have : j - i < n + 1 := by omega
          simp [hlt, this]
        · have h5 : ¬ (j - (i + 1) < n) := by omega
          have h6 : ¬ (j - i < n + 1) := by omega
          simp [h5, h6]
      have h5 : a + 1 + ((j - (i + 1) : Nat) : Int) = a + ((j - i : Nat) : Int) := by
        omega
      cases hink : ink a py <;>
        simp [hink, h1, h2, Nat.testBit_or, hpow, h3, h4, h5, Bool.or_assoc]

theorem rowFold_lt (ink : Pix) (py : Int) :
    ∀ (n : Nat) (a b : Int), b - a = (n : Int) → ∀ (r i : Nat), r < 2 ^ i →
      ((intRange a b).foldl (rowStep ink py) (r, i)).1 < 2 ^ (i + n) := by
  intro n
  induction n with
  | zero =>
    intro a b hab r i hr
    rw [intRange_eq_nil (by omega)]
    simpa using hr
  | succ n ih =>
    intro a b hab r i hr
    rw [intRange_eq_cons (by omega : a < b), List.foldl_cons]
    have hstep : rowStep ink py (r, i) a =
        ((if ink a py then r ||| (1 <<< i) else r), i + 1) := rfl
    rw [hstep]
    have hr' : (if ink a py then r ||| (1 <<< i) else r) < 2 ^ (i + 1) := by
      have hpow : (1 <<< i) = 2 ^ i := by rw [Nat.shiftLeft_eq, one_mul]
      have hlt : 2 ^ i < 2 ^ (i + 1) := by
        exact Nat.pow_lt_pow_right (by norm_num) (Nat.lt_succ_self i)
      cases hink : ink a py
      · simpa using lt_trans hr hlt
      · simp only [if_pos]
        rw [hpow]
        exact Nat.or_lt_two_pow (lt_trans hr hlt) hlt
    have := ih (a + 1) b (by omega) _ (i + 1) hr'
    have harr : i + 1 + n = i + (n + 1) := by omega
    rwa [harr] at this

theorem rowOf_testBit {ink : Pix} {a b py : Int} (j : Nat) :
    (rowOf ink a b py).testBit j =
      (decide (j < (b - a).toNat) && ink (a + (j : Int)) py) := by
  rcases Int.le_or_lt a b with hab | hab
  · have := rowFold_testBit ink py (b - a).toNat a b (by omega) 0 0 j
    simpa [rowOf] using this
  · rw [rowOf, intRange_eq_nil (by omega)]
    have : (b - a).toNat = 0 := by omega
    simp [this]

theorem rowOf_lt (ink : Pix) (a b py : Int) :
    rowOf ink a b py < 2 ^ (b - a).toNat := by
  rcases Int.le_or_lt a b with hab | hab
  · have := rowFold_lt ink py (b - a).toNat a b (by omega) 0 0 (by norm_num)
    simpa [rowOf] using this
  · rw [rowOf, intRange_eq_nil (by omega)]
    show (0 : Nat) < 2 ^ (b - a).toNat
    exact Nat.pos_pow_of_pos _ (by norm_num)

theorem mkRows_length (ink : Pix) (a b c d : Int) :
    (mkRows ink a b c d).length = (d - c).toNat := by
  simp [mkRows, intRange_length]

theorem mkRows_getD {ink : Pix} {a b c d : Int} {r : Nat} (h : r < (d - c).toNat) :
    (mkRows ink a b c d).getD r 0 = rowOf ink a b (c + (r : Int)) := by
  have hlen : r < (mkRows ink a b c d).length := by
    rw [mkRows_length]
    exact h
  rw [List.getD_eq_getElem _ _ hlen]
  simp [mkRows, intRange]

theorem decodeRows_narrow (rows : List Nat) (h : ∀ r ∈ rows, r < 256) :
    decodeRows false (rows.map (fun r => r % 256)) = rows := by
  have : rows.map (fun r => r % 256) = rows.map id := by
    refine List.map_congr_left (fun r hr => Nat.mod_eq_of_lt (h r hr))
  rw [decodeRows, this, List.map_id]

theorem decodeRows_wide (rows : List Nat) (h : ∀ r ∈ rows, r < 65536) :
    decodeRows true (rows.flatMap (fun r => [r % 256, r / 256])) = rows := by
  induction rows with
  | nil => rfl
  | cons hd t ih =>
    have hhd : hd < 65536 := h hd (List.mem_cons_self hd t)
    have hval : hd % 256 + 256 * (hd / 256) = hd := by omega
    calc decodeRows true ((hd :: t).flatMap (fun r => [r % 256, r / 256]))
        = (hd % 256 + 256 * (hd / 256)) ::
            decodeRows true (t.flatMap (fun r => [r % 256, r / 256])) := rfl
      _ = hd :: t := by
          rw [hval, ih (fun r hr => h r (List.mem_cons_of_mem hd hr))]

theorem nib_decompose : ∀ w : Nat, w < 16 → ∀ h : Nat, h < 16 →
    (w ||| (h <<< 4)) % 16 = w ∧ (w ||| (h <<< 4)) / 16 = h := by decide

theorem byte2_decompose : ∀ v : Nat, v < 16 → ∀ a b c d : Bool,
    (v ||| (a.toNat <<< 4) ||| (b.toNat <<< 5) ||| (c.toNat <<< 6) ||| (d.toNat <<< 7)) % 16
      = v ∧
    ((v ||| (a.toNat <<< 4) ||| (b.toNat <<< 5) ||| (c.toNat <<< 6) |||
      (d.toNat <<< 7)).testBit 4 = a) ∧
    ((v ||| (a.toNat <<< 4) ||| (b.toNat <<< 5) ||| (c.toNat <<< 6) |||
      (d.toNat <<< 7)).testBit 5 = b) ∧
    ((v ||| (a.toNat <<< 4) ||| (b.toNat <<< 5) ||| (c.toNat <<< 6) |||
      (d.toNat <<< 7)).testBit 6 = c) ∧
    ((v ||| (a.toNat <<< 4) ||| (b.toNat <<< 5) ||| (c.toNat <<< 6) |||
      (d.toNat <<< 7)).testBit 7 = d) ∧
    (v ||| (a.toNat <<< 4) ||| (b.toNat <<< 5) ||| (c.toNat <<< 6) ||| (d.toNat <<< 7))
      < 256 := by
  decide

theorem byte2_fields_aux (v : Nat) (hv : v < 16) (P4 P5 P6 P7 : Prop)
    [Decidable P4] [Decidable P5] [Decidable P6] [Decidable P7] :
    ((v ||| ((if P4 then 1 else 0) <<< 4) ||| ((if P5 then 1 else 0) <<< 5) |||
      ((if P6 then 1 else 0) <<< 6) ||| ((if P7 then 1 else 0) <<< 7)) % 16 = v) ∧
    ((v ||| ((if P4 then 1 else 0) <<< 4) ||| ((if P5 then 1 else 0) <<< 5) |||
      ((if P6 then 1 else 0) <<< 6) ||| ((if P7 then 1 else 0) <<< 7)).testBit 4
        = decide P4) ∧
    ((v ||| ((if P4 then 1 else 0) <<< 4) ||| ((if P5 then 1 else 0) <<< 5) |||
      ((if P6 then 1 else 0) <<< 6) ||| ((if P7 then 1 else 0) <<< 7)).testBit 5
        = decide P5) ∧
    ((v ||| ((if P4 then 1 else 0) <<< 4) ||| ((if P5 then 1 else 0) <<< 5) |||
      ((if P6 then 1 else 0) <<< 6) ||| ((if P7 then 1 else 0) <<< 7)).testBit 6
        = decide P6) ∧
    ((v ||| ((if P4 then 1 else 0) <<< 4) ||| ((if P5 then 1 else 0) <<< 5) |||
      ((if P6 then 1 else 0) <<< 6) ||| ((if P7 then 1 else 0) <<< 7)).testBit 7
        = decide P7) ∧
    (v ||| ((if P4 then 1 else 0) <<< 4) ||| ((if P5 then 1 else 0) <<< 5) |||
      ((if P6 then 1 else 0) <<< 6) ||| ((if P7 then 1 else 0) <<< 7)) < 256 := by
  have e4 : (if P4 then 1 else 0 : Nat) = (decide P4).toNat := by
    by_cases h : P4 <;> simp [h]
  have e5 : (if P5 then 1 else 0 : Nat) = (decide P5).toNat := by
    by_cases h : P5 <;> simp [h]
  have e6 : (if P6 then 1 else 0 : Nat) = (decide P6).toNat := by
    by_cases h : P6 <;> simp [h]
  have e7 : (if P7 then 1 else 0 : Nat) = (decide P7).toNat := by
    by_cases h : P7 <;> simp [h]
  rw [e4, e5, e6, e7]
  exact byte2_decompose v hv (decide P4) (decide P5) (decide P6) (decide P7)

theorem encode_header_length (c : Char) : c.encode_header.length = 2 := rfl

theorem mkChar_no_ink {ink : Pix} {x0 y0 sx sy : Int} (hsx : 0 ≤ sx)
    (h : ∀ px py : Int, x0 ≤ px → px < x0 + sx → y0 ≤ py → py < y0 + sy →
      ink px py = false) :
    mkChar ink x0 y0 sx sy = .ok ⟨x0, y0, sx, sy, x0 + sx, y0 + sy,
      x0 + sx, x0, y0 + sy, y0, y0 + sy, y0, y0 + sy, y0, []⟩ := by
  have hbb : scanBBox ink x0 y0 (x0 + sx) (y0 + sy) = ⟨x0 + sx, x0, y0 + sy, y0⟩ :=
    scanBBox_no_ink h
  have hc : x0 ≤ x0 + sx := by omega
  simp [mkChar, hbb, hc]

theorem mkChar_ok_nonblank {ink : Pix} {x0 y0 sx sy : Int} {c : Char}
    (hok : mkChar ink x0 y0 sx sy = .ok c) (hnb : c.is_blank = false) :
    c.im_rect_x = x0 ∧ c.im_rect_y = y0 ∧ c.im_rect_x_size = sx ∧ c.im_rect_y_size = sy ∧
    c.im_rect_x_max = x0 + sx ∧ c.im_rect_y_max = y0 + sy ∧
    c.x_min = (scanBBox ink x0 y0 (x0 + sx) (y0 + sy)).x_min ∧
    c.x_max = (scanBBox ink x0 y0 (x0 + sx) (y0 + sy)).x_max ∧
    c.y_min = (scanBBox ink x0 y0 (x0 + sx) (y0 + sy)).y_min ∧
    c.y_max = (scanBBox ink x0 y0 (x0 + sx) (y0 + sy)).y_max ∧
    c.y_min_first = (scanColExtent ink c.x_min y0 (y0 + sy)).1 ∧
    c.y_max_first = (scanColExtent ink c.x_min y0 (y0 + sy)).2 ∧
    c.y_min_last = (scanColExtent ink (c.x_max - 1) y0 (y0 + sy)).1 ∧
    c.y_max_last = (scanColExtent ink (c.x_max - 1) y0 (y0 + sy)).2 ∧
    c.rows = mkRows ink c.x_min c.x_max c.y_min c.y_max ∧
    c.x_min < c.x_max ∧ c.x_max - c.x_min ≤ 12 ∧ c.y_max - c.y_min ≤ 12 ∧
    (0 ≤ c.x_max - c.x_min ∧ c.x_max - c.x_min < 16) ∧
    (0 ≤ c.y_max - c.y_min ∧ c.y_max - c.y_min < 16) ∧
    (0 ≤ c.y_min_first - c.y_min ∧ c.y_min_first - c.y_min < 16) ∧
    (0 ≤ c.y_max_first - c.y_min ∧ c.y_max_first - c.y_min < 16) ∧
    (0 ≤ c.y_min_last - c.y_min ∧ c.y_min_last - c.y_min < 16) ∧
    (0 ≤ c.y_max_last - c.y_min ∧ c.y_max_last - c.y_min < 16) ∧
    (0 ≤ c.y_min - y0 ∧ c.y_min - y0 < 16) := by
  simp only [mkChar] at hok
  split at hok
  · rename_i hblank
    obtain rfl : (⟨x0, y0, sx, sy, x0 + sx, y0 + sy,
        (scanBBox ink x0 y0 (x0 + sx) (y0 + sy)).x_min,
        (scanBBox ink x0 y0 (x0 + sx) (y0 + sy)).x_max,
        (scanBBox ink x0 y0 (x0 + sx) (y0 + sy)).y_min,
        (scanBBox ink x0 y0 (x0 + sx) (y0 + sy)).y_max,
        y0 + sy, y0, y0 + sy, y0, []⟩ : Char) = c := by
      exact Except.ok.inj hok
    simp [Char.is_blank, hblank] at hnb
  · split at hok
    · exact absurd hok (by simp)
    · split at hok
      · rename_i hblank hsize hassert
        obtain rfl : (⟨x0, y0, sx, sy, x0 + sx, y0 + sy,
            (scanBBox ink x0 y0 (x0 + sx) (y0 + sy)).x_min,
            (scanBBox ink x0 y0 (x0 + sx) (y0 + sy)).x_max,
            (scanBBox ink x0 y0 (x0 + sx) (y0 + sy)).y_min,
            (scanBBox ink x0 y0 (x0 + sx) (y0 + sy)).y_max,
            (scanColExtent ink (scanBBox ink x0 y0 (x0 + sx) (y0 + sy)).x_min y0 (y0 + sy)).1,
            (scanColExtent ink (scanBBox ink x0 y0 (x0 + sx) (y0 + sy)).x_min y0 (y0 + sy)).2,
            (scanColExtent ink ((scanBBox ink x0 y0 (x0 + sx) (y0 + sy)).x_max - 1)
              y0 (y0 + sy)).1,
            (scanColExtent ink ((scanBBox ink x0 y0 (x0 + sx) (y0 + sy)).x_max - 1)
              y0 (y0 + sy)).2,
            mkRows ink (scanBBox ink x0 y0 (x0 + sx) (y0 + sy)).x_min
              (scanBBox ink x0 y0 (x0 + sx) (y0 + sy)).x_max
              (scanBBox ink x0 y0 (x0 + sx) (y0 + sy)).y_min
              (scanBBox ink x0 y0 (x0 + sx) (y0 + sy)).y_max⟩ : Char) = c := by
          exact Except.ok.inj hok
        push_neg at hsize
        obtain ⟨ha1, ha2, ha3, ha4, ha5, ha6, ha7⟩ := hassert
        dsimp only
        exact ⟨rfl, rfl, rfl, rfl, rfl, rfl, rfl, rfl, rfl, rfl, rfl, rfl, rfl, rfl, rfl,
          by omega, hsize.1, hsize.2, ha1, ha2, ha3, ha4, ha5, ha6, ha7⟩
      · exact absurd hok (by simp)

theorem mkChar_asserts (ink : Pix) (x0 y0 sx sy : Int)
    (hsx : 0 < sx) (hsy : 0 < sy) (h16 : sy ≤ 16)
    (hnb : (scanBBox ink x0 y0 (x0 + sx) (y0 + sy)).x_min <
      (scanBBox ink x0 y0 (x0 + sx) (y0 + sy)).x_max)
    (hw : (scanBBox ink x0 y0 (x0 + sx) (y0 + sy)).x_max -
      (scanBBox ink x0 y0 (x0 + sx) (y0 + sy)).x_min ≤ 12)
    (hh : (scanBBox ink x0 y0 (x0 + sx) (y0 + sy)).y_max -
      (scanBBox ink x0 y0 (x0 + sx) (y0 + sy)).y_min ≤ 12) :
    (∃ py : Int, (scanBBox ink x0 y0 (x0 + sx) (y0 + sy)).y_min ≤ py ∧
      py < (scanBBox ink x0 y0 (x0 + sx) (y0 + sy)).y_max ∧
      ink (scanBBox ink x0 y0 (x0 + sx) (y0 + sy)).x_min py = true) ∧
    (∃ py : Int, (scanBBox ink x0 y0 (x0 + sx) (y0 + sy)).y_min ≤ py ∧
      py < (scanBBox ink x0 y0 (x0 + sx) (y0 + sy)).y_max ∧
      ink ((scanBBox ink x0 y0 (x0 + sx) (y0 + sy)).x_max - 1) py = true) ∧
    (scanBBox ink x0 y0 (x0 + sx) (y0 + sy)).y_min ≤
      (scanColExtent ink (scanBBox ink x0 y0 (x0 + sx) (y0 + sy)).x_min y0 (y0 + sy)).1 ∧
    (scanColExtent ink (scanBBox ink x0 y0 (x0 + sx) (y0 + sy)).x_min y0 (y0 + sy)).1 <
      (scanColExtent ink (scanBBox ink x0 y0 (x0 + sx) (y0 + sy)).x_min y0 (y0 + sy)).2 ∧
    (scanColExtent ink (scanBBox ink x0 y0 (x0 + sx) (y0 + sy)).x_min y0 (y0 + sy)).2 ≤
      (scanBBox ink x0 y0 (x0 + sx) (y0 + sy)).y_max ∧
    (scanBBox ink x0 y0 (x0 + sx) (y0 + sy)).y_min ≤
      (scanColExtent ink ((scanBBox ink x0 y0 (x0 + sx) (y0 + sy)).x_max - 1)
        y0 (y0 + sy)).1 ∧
    (scanColExtent ink ((scanBBox ink x0 y0 (x0 + sx) (y0 + sy)).x_max - 1)
      y0 (y0 + sy)).1 <
      (scanColExtent ink ((scanBBox ink x0 y0 (x0 + sx) (y0 + sy)).x_max - 1)
        y0 (y0 + sy)).2 ∧
    (scanColExtent ink ((scanBBox ink x0 y0 (x0 + sx) (y0 + sy)).x_max - 1)
      y0 (y0 + sy)).2 ≤ (scanBBox ink x0 y0 (x0 + sx) (y0 + sy)).y_max ∧
    y0 ≤ (scanBBox ink x0 y0 (x0 + sx) (y0 + sy)).y_min ∧
    (scanBBox ink x0 y0 (x0 + sx) (y0 + sy)).y_min <
      (scanBBox ink x0 y0 (x0 + sx) (y0 + sy)).y_max ∧
    (scanBBox ink x0 y0 (x0 + sx) (y0 + sy)).y_max ≤ y0 + sy ∧
    (0 ≤ (scanBBox ink x0 y0 (x0 + sx) (y0 + sy)).x_max -
        (scanBBox ink x0 y0 (x0 + sx) (y0 + sy)).x_min ∧
      (scanBBox ink x0 y0 (x0 + sx) (y0 + sy)).x_max -
        (scanBBox ink x0 y0 (x0 + sx) (y0 + sy)).x_min < 16) ∧
    (0 ≤ (scanBBox ink x0 y0 (x0 + sx) (y0 + sy)).y_max -
        (scanBBox ink x0 y0 (x0 + sx) (y0 + sy)).y_min ∧
      (scanBBox ink x0 y0 (x0 + sx) (y0 + sy)).y_max -
        (scanBBox ink x0 y0 (x0 + sx) (y0 + sy)).y_min < 16) ∧
    (0 ≤ (scanColExtent ink (scanBBox ink x0 y0 (x0 + sx) (y0 + sy)).x_min y0 (y0 + sy)).1 -
        (scanBBox ink x0 y0 (x0 + sx) (y0 + sy)).y_min ∧
      (scanColExtent ink (scanBBox ink x0 y0 (x0 + sx) (y0 + sy)).x_min y0 (y0 + sy)).1 -
        (scanBBox ink x0 y0 (x0 + sx) (y0 + sy)).y_min < 16) ∧
    (0 ≤ (scanColExtent ink (scanBBox ink x0 y0 (x0 + sx) (y0 + sy)).x_min y0 (y0 + sy)).2 -
        (scanBBox ink x0 y0 (x0 + sx) (y0 + sy)).y_min ∧
      (scanColExtent ink (scanBBox ink x0 y0 (x0 + sx) (y0 + sy)).x_min y0 (y0 + sy)).2 -
        (scanBBox ink x0 y0 (x0 + sx) (y0 + sy)).y_min < 16) ∧
    (0 ≤ (scanColExtent ink ((scanBBox ink x0 y0 (x0 + sx) (y0 + sy)).x_max - 1)
          y0 (y0 + sy)).1 - (scanBBox ink x0 y0 (x0 + sx) (y0 + sy)).y_min ∧
      (scanColExtent ink ((scanBBox ink x0 y0 (x0 + sx) (y0 + sy)).x_max - 1)
          y0 (y0 + sy)).1 - (scanBBox ink x0 y0 (x0 + sx) (y0 + sy)).y_min < 16) ∧
    (0 ≤ (scanColExtent ink ((scanBBox ink x0 y0 (x0 + sx) (y0 + sy)).x_max - 1)
          y0 (y0 + sy)).2 - (scanBBox ink x0 y0 (x0 + sx) (y0 + sy)).y_min ∧
      (scanColExtent ink ((scanBBox ink x0 y0 (x0 + sx) (y0 + sy)).x_max - 1)
          y0 (y0 + sy)).2 - (scanBBox ink x0 y0 (x0 + sx) (y0 + sy)).y_min < 16) ∧
    (0 ≤ (scanBBox ink x0 y0 (x0 + sx) (y0 + sy)).y_min - y0 ∧
      (scanBBox ink x0 y0 (x0 + sx) (y0 + sy)).y_min - y0 < 16) := by
  set bb := scanBBox ink x0 y0 (x0 + sx) (y0 + sy) with hbb
  -- some ink pixel exists in the cell
  have hex : ∃ px py : Int, (x0 ≤ px ∧ px < x0 + sx ∧ y0 ≤ py ∧ py < y0 + sy) ∧
      ink px py = true := by
    by_contra hno
    push_neg at hno
    have hall : ∀ px py : Int, x0 ≤ px → px < x0 + sx → y0 ≤ py → py < y0 + sy →
        ink px py = false := by
      intro px py h1 h2 h3 h4
      have := hno px py ⟨h1, h2, h3, h4⟩
      exact Bool.not_eq_true _ ▸ by simpa using this
    have h0 := scanBBox_no_ink hall
    rw [hbb, h0] at hnb
    simp at hnb
    omega
  -- the leftmost ink column is achieved by an ink pixel
  obtain ⟨qx, qy, ⟨q1, q2, q3, q4⟩, hq⟩ := hex
  have hq_le := scanBBox_ink_le q1 q2 q3 q4 hq
  rw [← hbb] at hq_le
  have hfirst : ∃ py : Int, y0 ≤ py ∧ py < y0 + sy ∧ ink bb.x_min py = true ∧
      x0 ≤ bb.x_min ∧ bb.x_min < x0 + sx := by
    rcases scanBBox_x_min_cases ink x0 y0 (x0 + sx) (y0 + sy) with hc | hc
    · rw [← hbb] at hc
      exfalso
      have : bb.x_min ≤ qx := hq_le.1
      omega
    · obtain ⟨px, py, ⟨b1, b2, b3, b4⟩, hink, heq⟩ := hc
      rw [← hbb] at heq
      exact ⟨py, b3, b4, heq ▸ hink, heq ▸ b1, heq ▸ b2⟩
  have hlast : ∃ py : Int, y0 ≤ py ∧ py < y0 + sy ∧ ink (bb.x_max - 1) py = true ∧
      x0 ≤ bb.x_max - 1 ∧ bb.x_max - 1 < x0 + sx := by
    rcases scanBBox_x_max_cases ink x0 y0 (x0 + sx) (y0 + sy) with hc | hc
    · rw [← hbb] at hc
      exfalso
      have : qx + 1 ≤ bb.x_max := hq_le.2.1
      omega
    · obtain ⟨px, py, ⟨b1, b2, b3, b4⟩, hink, heq⟩ := hc
      rw [← hbb] at heq
      refine ⟨py, b3, b4, ?_, by omega, by omega⟩
      have : px = bb.x_max - 1 := by omega
      exact this ▸ hink
  obtain ⟨fy, f1, f2, f3, f4, f5⟩ := hfirst
  obtain ⟨ly, l1, l2, l3, l4, l5⟩ := hlast
  -- ink box bounds of the two witnesses
  have hfbox := scanBBox_ink_le f4 f5 f1 f2 f3
  rw [← hbb] at hfbox
  have hlbox := scanBBox_ink_le l4 l5 l1 l2 l3
  rw [← hbb] at hlbox
  -- extent facts for the leading column
  have hfe_le := scanColExtent_ink_le f1 f2 f3
  have hfe1 : bb.y_min ≤ (scanColExtent ink bb.x_min y0 (y0 + sy)).1 := by
    rcases scanColExtent_fst_cases ink bb.x_min y0 (y0 + sy) with hc | ⟨py, p1, p2, p3, p4⟩
    · exfalso
      have := hfe_le.1
      omega
    · have := (scanBBox_ink_le f4 f5 p1 p2 p3).2.2.1
      rw [← hbb] at this
      omega
  have hfe2 : (scanColExtent ink bb.x_min y0 (y0 + sy)).2 ≤ bb.y_max := by
    rcases scanColExtent_snd_cases ink bb.x_min y0 (y0 + sy) with hc | ⟨py, p1, p2, p3, p4⟩
    · exfalso
      have := hfe_le.2
      omega
    · have := (scanBBox_ink_le f4 f5 p1 p2 p3).2.2.2
      rw [← hbb] at this
      omega
  -- extent facts for the trailing column
  have hle_le := scanColExtent_ink_le l1 l2 l3
  have hle1 : bb.y_min ≤ (scanColExtent ink (bb.x_max - 1) y0 (y0 + sy)).1 := by
    rcases scanColExtent_fst_cases ink (bb.x_max - 1) y0 (y0 + sy) with
      hc | ⟨py, p1, p2, p3, p4⟩
    · exfalso
      have := hle_le.1
      omega
    · have := (scanBBox_ink_le l4 l5 p1 p2 p3).2.2.1
      rw [← hbb] at this
      omega
  have hle2 : (scanColExtent ink (bb.x_max - 1) y0 (y0 + sy)).2 ≤ bb.y_max := by
    rcases scanColExtent_snd_cases ink (bb.x_max - 1) y0 (y0 + sy) with
      hc | ⟨py, p1, p2, p3, p4⟩
    · exfalso
      have := hle_le.2
      omega
    · have := (scanBBox_ink_le l4 l5 p1 p2 p3).2.2.2
      rw [← hbb] at this
      omega
  -- ink box vertical bounds within the cell
  have hymin : y0 ≤ bb.y_min := by
    rcases scanBBox_y_min_cases ink x0 y0 (x0 + sx) (y0 + sy) with hc | ⟨px, py, ⟨_, _, p3, p4⟩, _, heq⟩
    · rw [← hbb] at hc
      exfalso
      have := hfbox.2.2.1
      omega
    · rw [← hbb] at heq
      omega
  have hymax : bb.y_max ≤ y0 + sy := by
    rcases scanBBox_y_max_cases ink x0 y0 (x0 + sx) (y0 + sy) with hc | ⟨px, py, ⟨_, _, p3, p4⟩, _, heq⟩
    · rw [← hbb] at hc
      exfalso
      have := hfbox.2.2.2
      omega
    · rw [← hbb] at heq
      omega
  refine ⟨⟨fy, hfbox.2.2.1, by omega, f3⟩, ⟨ly, hlbox.2.2.1, by omega, l3⟩,
    hfe1, by omega, hfe2, hle1, by omega, hle2, hymin, by omega, hymax,
    ⟨by omega, by omega⟩, ⟨by omega, by omega⟩, ⟨by omega, by omega⟩, ⟨by omega, by omega⟩,
    ⟨by omega, by omega⟩, ⟨by omega, by omega⟩, ⟨by omega, by omega⟩⟩

theorem mkChar_isOk_iff {ink : Pix} {x0 y0 sx sy : Int}
    (hsx : 0 < sx) (hsy : 0 < sy) (h16 : sy ≤ 16) :
    isOkE (mkChar ink x0 y0 sx sy) = false ↔
      (12 < (scanBBox ink x0 y0 (x0 + sx) (y0 + sy)).x_max -
        (scanBBox ink x0 y0 (x0 + sx) (y0 + sy)).x_min ∨
       12 < (scanBBox ink x0 y0 (x0 + sx) (y0 + sy)).y_max -
        (scanBBox ink x0 y0 (x0 + sx) (y0 + sy)).y_min) := by
  simp only [mkChar]
  split
  · rename_i hblank
    have hno : ∀ px py : Int, x0 ≤ px → px < x0 + sx → y0 ≤ py → py < y0 + sy →
        ink px py = false := by
      intro px py h1 h2 h3 h4
      by_contra hcon
      have hink : ink px py = true := by simpa using hcon
      have := scanBBox_ink_le h1 h2 h3 h4 hink
      omega
    have h0 := scanBBox_no_ink hno
    rw [h0]
    rw [h0] at hblank
    constructor
    · intro h
      exact absurd h (by simp [isOkE])
    · intro h
      simp only at h
      omega
  · rename_i hblank
    split
    · rename_i hsize
      simp only [isOkE, true_iff]
      exact hsize
    · rename_i hsize
      push_neg at hsize
      split
      · rename_i hassert
        simp only [isOkE]
        constructor
        · intro h
          exact absurd h (by simp)
        · intro h
          exact absurd h (by omega)
      · rename_i hassert
        exfalso
        obtain ⟨_, _, _, _, _, _, _, _, _, _, _, a1, a2, a3, a4, a5, a6, a7⟩ :=
          mkChar_asserts ink x0 y0 sx sy hsx hsy h16 (by omega) hsize.1 hsize.2
        exact hassert ⟨a1, a2, a3, a4, a5, a6, a7⟩

theorem extractCells_isOk (ink : Pix) (csx csy : Int) (ps : List (Int × Int)) :
    isOkE (extractCells ink csx csy ps) =
      ps.all (fun p => isOkE (mkChar ink p.1 p.2 csx csy)) := by
  induction ps with
  | nil => rfl
  | cons hd t ih =>
    rw [List.all_cons, ← ih]
    show isOkE ((mkChar ink hd.1 hd.2 csx csy).bind fun c =>
      (extractCells ink csx csy t).map (fun l => c :: l)) = _
    cases hm : mkChar ink hd.1 hd.2 csx csy with
    | error e => rfl
    | ok c =>
      cases ht : extractCells ink csx csy t with
      | error e => rfl
      | ok l => rfl

theorem extractCells_ok_getD {ink : Pix} {csx csy : Int} {ps : List (Int × Int)}
    {l : List Char} (hok : extractCells ink csx csy ps = .ok l) :
    l.length = ps.length ∧
    ∀ i, i < ps.length →
      mkChar ink (ps.getD i (0, 0)).1 (ps.getD i (0, 0)).2 csx csy = .ok (l.getD i default) := by
  induction ps generalizing l with
  | nil =>
    obtain rfl : ([] : List Char) = l := Except.ok.inj hok
    exact ⟨rfl, fun i hi => absurd hi (by simp)⟩
  | cons hd t ih =>
    rw [show extractCells ink csx csy (hd :: t) = (mkChar ink hd.1 hd.2 csx csy).bind
      (fun c => (extractCells ink csx csy t).map (fun l => c :: l)) from rfl] at hok
    cases hm : mkChar ink hd.1 hd.2 csx csy with
    | error e =>
      rw [hm] at hok
      exact absurd hok (by simp [Except.bind])
    | ok c =>
      rw [hm] at hok
      cases ht : extractCells ink csx csy t with
      | error e =>
        rw [ht] at hok
        exact absurd hok (by simp [Except.bind, Except.map])
      | ok l' =>
        rw [ht] at hok
        obtain rfl : c :: l' = l := Except.ok.inj hok
        obtain ⟨hlen, hget⟩ := ih ht
        refine ⟨by simp [hlen], fun i hi => ?_⟩
        cases i with
        | zero => simpa using hm
        | succ i =>
          simp only [List.getD_cons_succ]
          exact hget i (by simpa using hi)

theorem cellRects_succ (rx ry csx csy : Int) (nx n : Nat) :
    cellRects rx ry csx csy nx (n + 1) =
      cellRects rx ry csx csy nx n ++
        (List.range nx).map (fun (chx : Nat) => (rx + (chx : Int) * csx, ry + (n : Int) * csy)) := by
  rw [cellRects, cellRects, List.range_succ, List.flatMap_append]
  simp

theorem cellRects_length (rx ry csx csy : Int) (nx : Nat) :
    ∀ ny : Nat, (cellRects rx ry csx csy nx ny).length = ny * nx := by
  intro ny
  induction ny with
  | zero => simp [cellRects]
  | succ n ih =>
    rw [cellRects_succ, List.length_append, ih, List.length_map, List.length_range]
    ring

theorem cellRects_getD {rx ry csx csy : Int} {nx : Nat} :
    ∀ {ny cyi cxi : Nat}, cyi < ny → cxi < nx →
    (cellRects rx ry csx csy nx ny).getD (cyi * nx + cxi) (0, 0) =
      (rx + (cxi : Int) * csx, ry + (cyi : Int) * csy) := by
  intro ny
  induction ny with
  | zero => intro cyi cxi hcy; omega
  | succ n ih =>
    intro cyi cxi hcy hcx
    rw [cellRects_succ]
    rcases Nat.lt_or_ge cyi n with h | h
    · rw [List.getD_append]
      · exact ih h hcx
      · rw [cellRects_length]
        have h1 : cyi + 1 ≤ n := h
        calc cyi * nx + cxi < cyi * nx + nx := by omega
          _ = (cyi + 1) * nx := by ring
          _ ≤ n * nx := Nat.mul_le_mul_right nx h1
    · have hcyn : cyi = n := by omega
      subst hcyn
      rw [List.getD_append_right]
      · have hidx : cyi * nx + cxi - (cellRects rx ry csx csy nx cyi).length = cxi := by
          rw [cellRects_length]
          omega
        rw [hidx]
        have hlt : cxi < ((List.range nx).map
            (fun (chx : Nat) => (rx + (chx : Int) * csx, ry + (cyi : Int) * csy))).length := by
          simpa using hcx
        rw [List.getD_eq_getElem _ _ hlt]
        simp
      · rw [cellRects_length]
        omega

theorem bitmapBytes_cons (ch : Char) (rest : List Char) :
    bitmapBytes (ch :: rest) =
      (if ch.is_blank then [] else ch.encode_rows) ++ bitmapBytes rest := by
  cases h : ch.is_blank <;> simp [bitmapBytes, List.filter_cons, h]

theorem headerBytes_length (hlen : Nat) : ∀ (chars : List Char) (base : Nat),
    (headerBytes hlen base chars).length = 4 * chars.length := by
  intro chars
  induction chars with
  | nil => intro base; rfl
  | cons ch rest ih =>
    intro base
    rw [headerBytes]
    simp only [List.length_append, encode_header_length, List.length_cons,
      List.length_nil, ih, List.length_cons]
    omega

theorem offsetAux_cons (hlen base : Nat) (ch : Char) (rest : List Char) (i : Nat) :
    offsetAux hlen base (ch :: rest) (i + 1) =
      offsetAux hlen (base + if ch.is_blank then 0 else ch.encode_rows.length) rest i := by
  unfold offsetAux
  rw [List.getD_cons_succ]
  have hlb : bitmapLenBefore (ch :: rest) (i + 1) =
      (if ch.is_blank then 0 else ch.encode_rows.length) + bitmapLenBefore rest i := rfl
  by_cases hb : (rest.getD i default).is_blank = true
  · rw [if_pos hb, if_pos hb]
  · rw [if_neg hb, if_neg hb, hlb]
    omega

theorem bitmapLenBefore_mono : ∀ (chars : List Char) {i j : Nat}, i ≤ j →
    bitmapLenBefore chars i ≤ bitmapLenBefore chars j := by
  intro chars
  induction chars with
  | nil =>
    intro i j h
    cases i <;> cases j <;> simp [bitmapLenBefore]
  | cons c rest ih =>
    intro i j h
    cases i with
    | zero =>
      cases j with
      | zero => exact le_refl _
      | succ j => exact Nat.zero_le _
    | succ i =>
      cases j with
      | zero => omega
      | succ j =>
        simp only [bitmapLenBefore]
        exact Nat.add_le_add_left (ih (by omega)) _

theorem headerBytes_getD (hlen : Nat) : ∀ (chars : List Char) (base i : Nat),
    i < chars.length →
    ((headerBytes hlen base chars).getD (4 * i + 2) 0 = offsetAux hlen base chars i % 256 ∧
     (headerBytes hlen base chars).getD (4 * i + 3) 0 = offsetAux hlen base chars i / 256) := by
  intro chars
  induction chars with
  | nil => intro base i hi; simp at hi
  | cons ch rest ih =>
    intro base i hi
    rw [headerBytes]
    have hblen : (ch.encode_header ++ [(if ch.is_blank then 0 else base + hlen) % 256,
        (if ch.is_blank then 0 else base + hlen) / 256]).length = 4 := by
      simp [encode_header_length]
    cases i with
    | zero =>
      have hoff : offsetAux hlen base (ch :: rest) 0 =
          if ch.is_blank then 0 else base + hlen := by
        cases h : ch.is_blank <;> simp [offsetAux, bitmapLenBefore, h]
      constructor
      · rw [List.getD_append _ _ _ _ (by rw [hblen]; omega),
          List.getD_append_right _ _ _ _ (by rw [encode_header_length])]
        rw [encode_header_length, hoff]
        simp
      · rw [List.getD_append _ _ _ _ (by rw [hblen]; omega),
          List.getD_append_right _ _ _ _ (by rw [encode_header_length]; omega)]
        rw [encode_header_length, hoff]
        simp
    | succ i =>
      have h1 : 4 * (i + 1) + 2 - (ch.encode_header ++
          [(if ch.is_blank then 0 else base + hlen) % 256,
           (if ch.is_blank then 0 else base + hlen) / 256]).length = 4 * i + 2 := by
        rw [hblen]; omega
      have h2 : 4 * (i + 1) + 3 - (ch.encode_header ++
          [(if ch.is_blank then 0 else base + hlen) % 256,
           (if ch.is_blank then 0 else base + hlen) / 256]).length = 4 * i + 3 := by
        rw [hblen]; omega
      rw [offsetAux_cons]
      constructor
      · rw [List.getD_append_right _ _ _ _ (by rw [hblen]; omega), h1]
        exact (ih _ i (by simpa using hi)).1
      · rw [List.getD_append_right _ _ _ _ (by rw [hblen]; omega), h2]
        exact (ih _ i (by simpa using hi)).2

theorem packStep_ok {hlen : Nat} : ∀ (chars : List Char) (hdrs rws h' r' : List Nat),
    packStep hlen chars hdrs rws = .ok (h', r') →
    h' = hdrs ++ headerBytes hlen rws.length chars ∧
    r' = rws ++ bitmapBytes chars ∧
    ∀ i, i < chars.length → offsetAux hlen rws.length chars i < 65536 := by
  intro chars
  induction chars with
  | nil =>
    intro hdrs rws h' r' hok
    have hp : (hdrs, rws) = (h', r') := Except.ok.inj hok
    obtain ⟨rfl, rfl⟩ : hdrs = h' ∧ rws = r' :=
      ⟨congrArg Prod.fst hp, congrArg Prod.snd hp⟩
    exact ⟨by simp [headerBytes], by simp [bitmapBytes],
      fun i hi => absurd hi (by simp)⟩
  | cons ch rest ih =>
    intro hdrs rws h' r' hok
    simp only [packStep] at hok
    by_cases hbl : ch.is_blank = true
    · rw [if_pos hbl, if_pos hbl] at hok
      split at hok
      · obtain ⟨ih1, ih2, ih3⟩ := ih _ _ _ _ hok
        refine ⟨?_, ?_, ?_⟩
        · rw [ih1, headerBytes]
          simp [hbl, List.append_assoc]
        · rw [ih2, bitmapBytes_cons]
          simp [hbl]
        · intro i hi
          cases i with
          | zero => simp [offsetAux, hbl]
          | succ i =>
            rw [offsetAux_cons]
            simp only [hbl, if_true, Nat.add_zero]
            exact ih3 i (by simpa using hi)
      · exact absurd hok (by simp)
    · rw [if_neg hbl, if_neg hbl] at hok
      split at hok
      · rename_i hall
        obtain ⟨ih1, ih2, ih3⟩ := ih _ _ _ _ hok
        refine ⟨?_, ?_, ?_⟩
        · rw [ih1, headerBytes]
          simp [hbl, List.append_assoc]
        · rw [ih2, bitmapBytes_cons]
          simp [hbl, List.append_assoc]
        · intro i hi
          cases i with
          | zero =>
            have hmem : ((rws.length + hlen) / 256) ∈
                ch.encode_header ++ [(rws.length + hlen) % 256,
                  (rws.length + hlen) / 256] := by
              simp
            have hq := List.all_eq_true.mp hall _ hmem
            have hq' : (rws.length + hlen) / 256 < 256 := by simpa using hq
            simp only [offsetAux, List.getD_cons_zero, hbl, Bool.false_eq_true, if_false,
              bitmapLenBefore]
            omega
          | succ i =>
            rw [offsetAux_cons]
            simp only [hbl, Bool.false_eq_true, if_false]
            have := ih3 i (by simpa using hi)
            simpa [List.length_append] using this
      · exact absurd hok (by simp)

theorem offsetOf_eq_aux (chars : List Char) (i : Nat) :
    offsetOf chars i = offsetAux (4 * chars.length) 0 chars i := by
  simp [offsetOf, offsetAux]

theorem pack_ok {chars : List Char} {out : List Nat} (hok : pack chars = .ok out) :
    out = headerBytes (4 * chars.length) 0 chars ++ bitmapBytes chars ∧
    ∀ i, i < chars.length → offsetOf chars i < 65536 := by
  unfold pack at hok
  split at hok
  · exact absurd hok (by simp)
  · rename_i s heq
    split at hok
    · obtain rfl : s.1 ++ s.2 = out := Except.ok.inj hok
      obtain ⟨h1, h2, h3⟩ := packStep_ok chars [] [] s.1 s.2 (by rw [heq])
      refine ⟨by rw [h1, h2]; simp, fun i hi => ?_⟩
      rw [offsetOf_eq_aux]
      simpa using h3 i hi
    · exact absurd hok (by simp)
set_option maxRecDepth 8000 in
/-- C1 counterexample: packing a single fully blank 16x16 cell does NOT yield
four zero bytes.  The blank glyph keeps the inverted accumulator defaults
(y_min = cell bottom), so header byte 2 is 0xB0 = 176: the clamped y-offset 16
spills into bit 4 and flag bits 5 and 7 are set.  The output is 00 B0 00 00. -/
theorem blank_cell_header_counterexample :
    pack_font_core (fun _ _ => false) 0 0 16 16 16 16 = .ok [0, 176, 0, 0] ∧
    ([0, 176, 0, 0] : List Nat) ≠ [0, 0, 0, 0] :=
  ⟨rfl, by decide⟩

/-- C1 (amended): for a grid consisting of a single fully blank 16x16 cell,
pack produces exactly the 4-byte record 00 B0 00 00 — byte 0 is zero, byte 1
is 0xB0 (the blank glyph's clamped y-offset equals the cell height 16, which
overflows the 4-bit field into bit 4, and flag bits 5 and 7 are set by the
inverted extent defaults), and the offset field is zero — and appends no
bitmap bytes, so the total output is 4 bytes. -/
theorem blank_cell_header_amended (ink : Pix)
    (h : ∀ px py : Int, 0 ≤ px → px < 16 → 0 ≤ py → py < 16 → ink px py = false) :
    pack_font_core ink 0 0 16 16 16 16 = .ok [0, 176, 0, 0] := by
  have hmk : mkChar ink 0 0 16 16 = .ok blankChar16 := by
    have h2 := @mkChar_no_ink ink 0 0 16 16 (by norm_num)
      (fun px py h1 h2 h3 h4 => h px py h1 (by omega) h3 (by omega))
    simpa using h2
  have hrects : cellRects 0 0 16 16 ((16:Int).fdiv 16).toNat ((16:Int).fdiv 16).toNat =
      [(0, 0)] := by decide
  have hex : extract ink 0 0 16 16 16 16 = .ok [blankChar16] := by
    rw [extract, hrects]
    show (mkChar ink 0 0 16 16).bind
      (fun c => (extractCells ink 16 16 []).map (fun l => c :: l)) = _
    rw [hmk]
    rfl
  rw [pack_font_core, hex]
  rfl

/-- C1 witness: the amended statement instantiated at the everywhere-blank
ink test. -/
theorem blank_cell_header_amended_witness :
    pack_font_core (fun _ _ => false) 0 0 16 16 16 16 = .ok [0, 176, 0, 0] :=
  blank_cell_header_amended (fun _ _ => false) (fun _ _ _ _ _ _ => rfl)

set_option maxRecDepth 8000 in
/-- C2 counterexample: the blank glyph of a 16x16 cell at origin (0, 0) has
y_min_first = 16 (the cell bottom) and y_max_first = 0 (the cell top), which
is the reverse of the claimed full-cell span yMin = 0, yMax = 16. -/
theorem blank_extent_counterexample :
    mkChar (fun _ _ => false) 0 0 16 16 = .ok blankChar16 ∧
    ¬(blankChar16.y_min_first = blankChar16.im_rect_y ∧
      blankChar16.y_max_first = blankChar16.im_rect_y + blankChar16.im_rect_y_size) :=
  ⟨rfl, by decide⟩

/-- C2 (amended): for every blank glyph (a cell with no ink pixels and
nonnegative cell width), both edge extents keep the INVERTED initial
accumulator values: yMin equals cellBounds.y + cellHeight (the cell bottom)
and the exclusive yMax equals cellBounds.y (the cell top) — not the full
cell span stated in the spec. -/
theorem blank_extent_defaults (ink : Pix) (x0 y0 sx sy : Int) (hsx : 0 ≤ sx)
    (h : ∀ px py : Int, x0 ≤ px → px < x0 + sx → y0 ≤ py → py < y0 + sy →
      ink px py = false) :
    ∃ c : Char, mkChar ink x0 y0 sx sy = .ok c ∧ c.is_blank = true ∧
      c.y_min_first = y0 + sy ∧ c.y_max_first = y0 ∧
      c.y_min_last = y0 + sy ∧ c.y_max_last = y0 := by
  refine ⟨_, mkChar_no_ink hsx h, ?_, rfl, rfl, rfl, rfl⟩
  simp only [Char.is_blank, Bool.or_eq_true, decide_eq_true_eq]
  omega

/-- C2 witness: the amended statement instantiated at the everywhere-blank
ink test over a 16x16 cell at origin (0, 0). -/
theorem blank_extent_defaults_witness :
    ∃ c : Char, mkChar (fun _ _ => false) 0 0 16 16 = .ok c ∧ c.is_blank = true ∧
      c.y_min_first = 0 + 16 ∧ c.y_max_first = 0 ∧
      c.y_min_last = 0 + 16 ∧ c.y_max_last = 0 :=
  blank_extent_defaults (fun _ _ => false) 0 0 16 16 (by norm_num)
    (fun _ _ _ _ _ _ => rfl)

set_option maxRecDepth 8000 in
/-- C3 counterexample: for the blank glyph of a 16x16 cell, header byte 2 is
176 = 0xB0, but the claimed field layout fails: bits 0-3 of 176 are 0 while
max(0, yMin - cellBounds.y) = 16, and bit 4 is set although the bit-4
condition (trailing extent starts within 5 rows of the top and is one row
tall) is false — the y-offset value 16 spilled into bit 4. -/
theorem header_byte2_counterexample :
    mkChar (fun _ _ => false) 0 0 16 16 = .ok blankChar16 ∧
    blankChar16.encode_header.getD 1 0 = 176 ∧
    (max 0 (blankChar16.y_min - blankChar16.im_rect_y)).toNat = 16 ∧
    (176 : Nat) % 16 ≠ 16 ∧
    (176 : Nat).testBit 4 = true ∧
    ¬(blankChar16.y_min_last - blankChar16.im_rect_y ≤ 5 ∧
      blankChar16.y_min_last = blankChar16.y_max_last - 1) :=
  ⟨rfl, rfl, by decide, by decide, by decide, by decide⟩

/-- C3 (amended): for every glyph whose clamped y-offset
max(0, yMin - cellBounds.y) is at most 15 — that is, every non-blank glyph,
and every blank glyph from a cell of height at most 15 — header byte 2 has
bits 0-3 equal to the clamped y-offset, bit 4 set iff the trailing edge
extent starts within 5 rows of the cell top and is exactly one row tall,
bit 5 set iff the leading edge extent starts more than 5 rows down, bit 6
set iff the leading edge extent starts at row 9 or lower and is exactly one
row tall, bit 7 set iff the trailing edge extent ends above row 9, and the
five fields do not interfere.  (For a blank glyph in a 16-row cell the
y-offset value 16 spills into bit 4, refuting the unrestricted claim.) -/
theorem header_byte2_fields (c : Char)
    (hv : (max 0 (c.y_min - c.im_rect_y)).toNat < 16) :
    (c.encode_header.getD 1 0) % 16 = (max 0 (c.y_min - c.im_rect_y)).toNat ∧
    (c.encode_header.getD 1 0).testBit 4 =
      decide (c.y_min_last - c.im_rect_y ≤ 5 ∧ c.y_min_last = c.y_max_last - 1) ∧
    (c.encode_header.getD 1 0).testBit 5 = decide (5 < c.y_min_first - c.im_rect_y) ∧
    (c.encode_header.getD 1 0).testBit 6 =
      decide (9 ≤ c.y_min_first - c.im_rect_y ∧ c.y_min_first = c.y_max_first - 1) ∧
    (c.encode_header.getD 1 0).testBit 7 = decide (c.y_max_last - c.im_rect_y < 9) ∧
    (c.encode_header.getD 1 0) < 256 := by
  have hgd : c.encode_header.getD 1 0 =
      (max 0 (c.y_min - c.im_rect_y)).toNat
        ||| ((if c.y_min_last - c.im_rect_y ≤ 5 ∧ c.y_min_last = c.y_max_last - 1
              then 1 else 0) <<< 4)
        ||| ((if 5 < c.y_min_first - c.im_rect_y then 1 else 0) <<< 5)
        ||| ((if 9 ≤ c.y_min_first - c.im_rect_y ∧ c.y_min_first = c.y_max_first - 1
              then 1 else 0) <<< 6)
        ||| ((if c.y_max_last - c.im_rect_y < 9 then 1 else 0) <<< 7) := rfl
  rw [hgd]
  exact byte2_fields_aux _ hv _ _ _ _

/-- C3 witness: the amended statement instantiated at the 1x1 single-pixel
glyph, whose header byte 2 is 144 = 0x90 (bits 4 and 7 set). -/
theorem header_byte2_fields_witness :
    (nbC.encode_header.getD 1 0) % 16 = (max 0 (nbC.y_min - nbC.im_rect_y)).toNat ∧
    (nbC.encode_header.getD 1 0).testBit 4 =
      decide (nbC.y_min_last - nbC.im_rect_y ≤ 5 ∧ nbC.y_min_last = nbC.y_max_last - 1) ∧
    (nbC.encode_header.getD 1 0).testBit 5 =
      decide (5 < nbC.y_min_first - nbC.im_rect_y) ∧
    (nbC.encode_header.getD 1 0).testBit 6 =
      decide (9 ≤ nbC.y_min_first - nbC.im_rect_y ∧
        nbC.y_min_first = nbC.y_max_first - 1) ∧
    (nbC.encode_header.getD 1 0).testBit 7 =
      decide (nbC.y_max_last - nbC.im_rect_y < 9) ∧
    (nbC.encode_header.getD 1 0) < 256 :=
  header_byte2_fields nbC (by decide)

/-- C4: for every glyph list accepted by pack, the output is the header
region followed by the bitmap region: blank records carry offset field 0 and
contribute no bitmap bytes, each non-blank record's little-endian offset
field equals 4 times the glyph count plus the encoded bitmap lengths of the
earlier non-blank glyphs, offsets of non-blank glyphs are non-decreasing,
and the total length is 4 times the glyph count plus the bitmap length. -/
theorem pack_layout (chars : List Char) (out : List Nat) (hok : pack chars = .ok out) :
    out.length = 4 * chars.length + (bitmapBytes chars).length ∧
    (∀ i, i < chars.length → (chars.getD i default).is_blank = true →
      out.getD (4 * i + 2) 0 = 0 ∧ out.getD (4 * i + 3) 0 = 0) ∧
    (∀ i, i < chars.length → (chars.getD i default).is_blank = false →
      out.getD (4 * i + 2) 0 + 256 * out.getD (4 * i + 3) 0 =
        4 * chars.length + bitmapLenBefore chars i) ∧
    (∀ i j, i ≤ j → j < chars.length → (chars.getD i default).is_blank = false →
      (chars.getD j default).is_blank = false →
      offsetOf chars i ≤ offsetOf chars j) := by
  obtain ⟨hout, hbound⟩ := pack_ok hok
  subst hout
  have hhl := headerBytes_length (4 * chars.length) chars 0
  refine ⟨?_, ?_, ?_, ?_⟩
  · rw [List.length_append, hhl]
  · intro i hi hbl
    have hgd := headerBytes_getD (4 * chars.length) chars 0 i hi
    have hoa : offsetAux (4 * chars.length) 0 chars i = 0 := by
      rw [offsetAux, if_pos hbl]
    constructor
    · rw [List.getD_append _ _ _ _ (by rw [hhl]; omega), hgd.1, hoa]
    · rw [List.getD_append _ _ _ _ (by rw [hhl]; omega), hgd.2, hoa]
  · intro i hi hbl
    have hgd := headerBytes_getD (4 * chars.length) chars 0 i hi
    have hb := hbound i hi
    rw [offsetOf_eq_aux] at hb
    have hval : offsetAux (4 * chars.length) 0 chars i =
        4 * chars.length + bitmapLenBefore chars i := by
      rw [offsetAux, if_neg (by rw [hbl]; exact Bool.false_ne_true)]
      omega
    rw [List.getD_append _ _ _ _ (by rw [hhl]; omega),
        List.getD_append _ _ _ _ (by rw [hhl]; omega), hgd.1, hgd.2]
    omega
  · intro i j hij hj hbi hbj
    simp only [offsetOf, hbi, hbj, Bool.false_eq_true, if_false]
    have := bitmapLenBefore_mono chars hij
    omega

set_option maxRecDepth 8000 in
/-- C4 witness: packing a blank 16x16 glyph followed by the 1x1 pixel glyph
gives 9 bytes, with the second record's offset field equal to the 8-byte
header region size. -/
theorem pack_layout_witness :
    pack [blankChar16, nbC] = .ok [0, 176, 0, 0, 17, 144, 8, 0, 1] ∧
    ([0, 176, 0, 0, 17, 144, 8, 0, 1] : List Nat).length =
      4 * ([blankChar16, nbC] : List Char).length +
        (bitmapBytes [blankChar16, nbC]).length ∧
    (([0, 176, 0, 0, 17, 144, 8, 0, 1] : List Nat).getD (4 * 0 + 2) 0 = 0 ∧
      ([0, 176, 0, 0, 17, 144, 8, 0, 1] : List Nat).getD (4 * 0 + 3) 0 = 0) ∧
    ([0, 176, 0, 0, 17, 144, 8, 0, 1] : List Nat).getD (4 * 1 + 2) 0 +
        256 * ([0, 176, 0, 0, 17, 144, 8, 0, 1] : List Nat).getD (4 * 1 + 3) 0 =
      4 * ([blankChar16, nbC] : List Char).length +
        bitmapLenBefore [blankChar16, nbC] 1 := by
  have hok : pack [blankChar16, nbC] = .ok [0, 176, 0, 0, 17, 144, 8, 0, 1] := rfl
  have h := pack_layout [blankChar16, nbC] [0, 176, 0, 0, 17, 144, 8, 0, 1] hok
  exact ⟨hok, h.1, h.2.1 0 (by norm_num) (by decide),
    h.2.2.1 1 (by norm_num) (by decide)⟩

/-- C8: if some non-blank glyph's computed bitmap offset is 65536 or more,
pack fails (the offset's high byte exceeds the range of Python's bytes()),
and whenever pack succeeds every record's 2-byte little-endian offset field
decodes to exactly the computed offset. -/
theorem pack_offset_capacity (chars : List Char) :
    ((∃ i, i < chars.length ∧ (chars.getD i default).is_blank = false ∧
        65536 ≤ offsetOf chars i) → isOkE (pack chars) = false) ∧
    (∀ out, pack chars = .ok out → ∀ i, i < chars.length →
      out.getD (4 * i + 2) 0 + 256 * out.getD (4 * i + 3) 0 = offsetOf chars i) := by
  constructor
  · rintro ⟨i, hi, hbl, hbig⟩
    cases hp : pack chars with
    | error e => rfl
    | ok out =>
      exfalso
      obtain ⟨-, hbound⟩ := pack_ok hp
      have := hbound i hi
      omega
  · intro out hok i hi
    obtain ⟨hout, hbound⟩ := pack_ok hok
    subst hout
    have hhl := headerBytes_length (4 * chars.length) chars 0
    have hgd := headerBytes_getD (4 * chars.length) chars 0 i hi
    rw [List.getD_append _ _ _ _ (by rw [hhl]; omega),
        List.getD_append _ _ _ _ (by rw [hhl]; omega), hgd.1, hgd.2, ← offsetOf_eq_aux]
    have := hbound i hi
    omega

set_option maxRecDepth 8000 in
/-- C8 witness: 16384 blank glyphs followed by one non-blank glyph make the
computed offset 65540, and pack fails; on the single-glyph list pack
succeeds and the record's offset field decodes to 4. -/
theorem pack_offset_capacity_witness :
    isOkE (pack bigChars) = false ∧
    ([17, 144, 4, 0, 1] : List Nat).getD (4 * 0 + 2) 0 +
        256 * ([17, 144, 4, 0, 1] : List Nat).getD (4 * 0 + 3) 0 =
      offsetOf [nbC] 0 := by
  have hg : bigChars.getD 16384 default = nbC := by
    rw [show bigChars = List.replicate 16384 blankChar16 ++ [nbC] from rfl,
      List.getD_append_right _ _ _ _ (by rw [List.length_replicate]),
      List.length_replicate, Nat.sub_self, List.getD_cons_zero]
  have hlen : bigChars.length = 16385 := by
    rw [show bigChars = List.replicate 16384 blankChar16 ++ [nbC] from rfl,
      List.length_append, List.length_replicate]
    rfl
  constructor
  · refine (pack_offset_capacity bigChars).1 ⟨16384, ?_, ?_, ?_⟩
    · rw [hlen]
      norm_num
    · rw [hg]
      decide
    · rw [offsetOf, hg, if_neg (by decide), hlen]
      omega
  · exact (pack_offset_capacity [nbC]).2 [17, 144, 4, 0, 1] rfl 0 (by norm_num)

theorem length_flatMap_pair {α : Type} (l : List α) (f g : α → Nat) :
    (l.flatMap (fun r => [f r, g r])).length = 2 * l.length := by
  induction l with
  | nil => rfl
  | cons hd t ih =>
    rw [List.flatMap_cons, List.length_append, ih]
    simp only [List.length_cons, List.length_nil]
    omega

/-- C5: for every non-blank extracted glyph, decoding the packed header and
bitmap reconstructs exactly the width, height and rows that extraction
produced: the low nibble of byte 0 is the width, the high nibble the height,
decoding the row bytes (1 per row if the decoded width is at most 8, else 2
little-endian) gives back the rows list, and bit i of row r equals the ink
test at pixel (xMin + i, yMin + r). -/
theorem glyph_roundtrip (ink : Pix) (x0 y0 sx sy : Int) (c : Char)
    (hok : mkChar ink x0 y0 sx sy = .ok c) (hnb : c.is_blank = false) :
    (c.encode_header.getD 0 0) % 16 = (c.x_max - c.x_min).toNat ∧
    (c.encode_header.getD 0 0) / 16 = (c.y_max - c.y_min).toNat ∧
    decodeRows (decide (8 < (c.encode_header.getD 0 0) % 16)) c.encode_rows = c.rows ∧
    c.rows.length = (c.y_max - c.y_min).toNat ∧
    (∀ r i : Nat, r < (c.y_max - c.y_min).toNat → i < (c.x_max - c.x_min).toNat →
      (c.rows.getD r 0).testBit i = ink (c.x_min + (i : Int)) (c.y_min + (r : Int))) := by
  obtain ⟨-, -, -, -, -, -, -, -, -, -, -, -, -, -, hrows, hlt, hw12, hh12,
    ⟨hw0, hw16⟩, ⟨hh0, hh16⟩, -, -, -, -, -⟩ := mkChar_ok_nonblank hok hnb
  have hb0 : c.encode_header.getD 0 0 =
      (max 0 (c.x_max - c.x_min)).toNat ||| ((max 0 (c.y_max - c.y_min)).toNat <<< 4) := rfl
  have hwmax : (max 0 (c.x_max - c.x_min)).toNat = (c.x_max - c.x_min).toNat := by omega
  have hhmax : (max 0 (c.y_max - c.y_min)).toNat = (c.y_max - c.y_min).toNat := by omega
  have hwlt : (c.x_max - c.x_min).toNat < 16 := by omega
  have hhlt : (c.y_max - c.y_min).toNat < 16 := by omega
  obtain ⟨hn1, hn2⟩ := nib_decompose _ hwlt _ hhlt
  have hb0w : c.encode_header.getD 0 0 % 16 = (c.x_max - c.x_min).toNat := by
    rw [hb0, hwmax, hhmax]
    exact hn1
  have hb0h : c.encode_header.getD 0 0 / 16 = (c.y_max - c.y_min).toNat := by
    rw [hb0, hwmax, hhmax]
    exact hn2
  have hrowlt : ∀ r ∈ c.rows, r < 2 ^ (c.x_max - c.x_min).toNat := by
    intro r hr
    rw [hrows] at hr
    obtain ⟨py, hpy, rfl⟩ := List.mem_map.mp hr
    exact rowOf_lt ink c.x_min c.x_max py
  have hwide : decide (8 < c.encode_header.getD 0 0 % 16) =
      decide (8 < c.x_max - c.x_min) := by
    rw [hb0w, decide_eq_decide]
    omega
  have hdec : decodeRows (decide (8 < c.encode_header.getD 0 0 % 16))
      c.encode_rows = c.rows := by
    rw [hwide, Char.encode_rows]
    by_cases h : 8 < c.x_max - c.x_min
    · rw [if_pos h, decide_eq_true h]
      refine decodeRows_wide c.rows (fun r hr => ?_)
      have h1 := hrowlt r hr
      have h2 : (2:Nat) ^ (c.x_max - c.x_min).toNat ≤ 2 ^ 12 :=
        Nat.pow_le_pow_right (by norm_num) (by omega)
      have h3 : (2:Nat) ^ 12 = 4096 := by norm_num
      omega
    · rw [if_neg h, decide_eq_false h]
      refine decodeRows_narrow c.rows (fun r hr => ?_)
      have h1 := hrowlt r hr
      have h2 : (2:Nat) ^ (c.x_max - c.x_min).toNat ≤ 2 ^ 8 :=
        Nat.pow_le_pow_right (by norm_num) (by omega)
      have h3 : (2:Nat) ^ 8 = 256 := by norm_num
      omega
  have hlen : c.rows.length = (c.y_max - c.y_min).toNat := by
    rw [hrows, mkRows_length]
  refine ⟨hb0w, hb0h, hdec, hlen, fun r i hr hi => ?_⟩
  rw [hrows, mkRows_getD hr, rowOf_testBit]
  simp [hi]

/-- C5 witness: the round-trip statement instantiated at the single-pixel
8x12 glyph. -/
theorem glyph_roundtrip_witness :
    (pixChar.encode_header.getD 0 0) % 16 = (pixChar.x_max - pixChar.x_min).toNat ∧
    (pixChar.encode_header.getD 0 0) / 16 = (pixChar.y_max - pixChar.y_min).toNat ∧
    decodeRows (decide (8 < (pixChar.encode_header.getD 0 0) % 16))
      pixChar.encode_rows = pixChar.rows ∧
    pixChar.rows.length = (pixChar.y_max - pixChar.y_min).toNat ∧
    (∀ r i : Nat, r < (pixChar.y_max - pixChar.y_min).toNat →
      i < (pixChar.x_max - pixChar.x_min).toNat →
      (pixChar.rows.getD r 0).testBit i =
        (fun x y : Int => decide (x = 0) && decide (y = 0))
          (pixChar.x_min + (i : Int)) (pixChar.y_min + (r : Int))) :=
  glyph_roundtrip (fun x y : Int => decide (x = 0) && decide (y = 0)) 0 0 8 12
    pixChar rfl rfl

/-- C6: for every non-blank extracted glyph the encoded bitmap has one byte
per row when the width is at most 8 and two bytes per row when it exceeds 8;
in particular width 8 gives height bytes and width 9 gives 2 x height bytes. -/
theorem encode_rows_width (ink : Pix) (x0 y0 sx sy : Int) (c : Char)
    (hok : mkChar ink x0 y0 sx sy = .ok c) (hnb : c.is_blank = false) :
    c.rows.length = (c.y_max - c.y_min).toNat ∧
    c.encode_rows.length =
      (if 8 < c.x_max - c.x_min then 2 else 1) * (c.y_max - c.y_min).toNat ∧
    (c.x_max - c.x_min = 8 → c.encode_rows.length = (c.y_max - c.y_min).toNat) ∧
    (c.x_max - c.x_min = 9 → c.encode_rows.length = 2 * (c.y_max - c.y_min).toNat) := by
  obtain ⟨-, -, -, -, -, -, -, -, -, -, -, -, -, -, hrows, -, -, -, -, -, -, -, -, -, -⟩ :=
    mkChar_ok_nonblank hok hnb
  have hlen : c.rows.length = (c.y_max - c.y_min).toNat := by
    rw [hrows, mkRows_length]
  have henc : c.encode_rows.length =
      (if 8 < c.x_max - c.x_min then 2 else 1) * c.rows.length := by
    rw [Char.encode_rows]
    by_cases h : 8 < c.x_max - c.x_min
    · rw [if_pos h, if_pos h, length_flatMap_pair]
    · rw [if_neg h, if_neg h, List.length_map, one_mul]
  refine ⟨hlen, by rw [henc, hlen], fun h8 => ?_, fun h9 => ?_⟩
  · rw [henc, hlen, if_neg (by omega), one_mul]
  · rw [henc, hlen, if_pos (by omega)]

/-- C6 witness: the width-9 glyph uses two bytes per row. -/
theorem encode_rows_width_witness :
    wideChar9.encode_rows.length = 2 * (wideChar9.y_max - wideChar9.y_min).toNat :=
  (encode_rows_width (fun x y : Int => decide (0 ≤ x) && decide (x < 9) && decide (y = 0))
    0 0 12 12 wideChar9 rfl rfl).2.2.2 (by decide)

theorem mem_cellRects {p : Int × Int} {rx ry csx csy : Int} {nx ny : Nat} :
    p ∈ cellRects rx ry csx csy nx ny ↔
      ∃ cyi cxi : Nat, cyi < ny ∧ cxi < nx ∧
        p = (rx + (cxi : Int) * csx, ry + (cyi : Int) * csy) := by
  simp only [cellRects, List.mem_flatMap, List.mem_map, List.mem_range]
  constructor
  · rintro ⟨chy, hchy, chx, hchx, heq⟩
    exact ⟨chy, chx, hchy, hchx, heq.symm⟩
  · rintro ⟨cyi, cxi, hcy, hcx, rfl⟩
    exact ⟨cyi, hcy, cxi, hcx, rfl⟩

theorem mkChar_ok_blank {ink : Pix} {x0 y0 sx sy : Int} {c : Char}
    (hok : mkChar ink x0 y0 sx sy = .ok c) (hb : c.is_blank = true)
    (hsx : 0 < sx) (hsy : 0 < sy) :
    c.x_max - c.x_min ≤ 0 ∧ c.y_max - c.y_min ≤ 0 := by
  simp only [mkChar] at hok
  split at hok
  · rename_i hxb
    obtain rfl := Except.ok.inj hok
    have hno : ∀ px py : Int, x0 ≤ px → px < x0 + sx → y0 ≤ py → py < y0 + sy →
        ink px py = false := by
      intro px py h1 h2 h3 h4
      by_contra hcon
      have hink : ink px py = true := by simpa using hcon
      have := scanBBox_ink_le h1 h2 h3 h4 hink
      omega
    have h0 := scanBBox_no_ink hno
    dsimp only
    rw [h0]
    dsimp only
    omega
  · split at hok
    · exact absurd hok (by simp)
    · split at hok
      · rename_i hxb hsize hassert
        obtain rfl := Except.ok.inj hok
        exfalso
        simp only [Char.is_blank, Bool.or_eq_true, decide_eq_true_eq] at hb
        rcases hb with hb | hb
        · exact hxb hb
        · have hex : ∃ px py : Int, (x0 ≤ px ∧ px < x0 + sx ∧ y0 ≤ py ∧ py < y0 + sy) ∧
              ink px py = true := by
            by_contra hno
            push_neg at hno
            have hall : ∀ px py : Int, x0 ≤ px → px < x0 + sx → y0 ≤ py → py < y0 + sy →
                ink px py = false := by
              intro px py h1 h2 h3 h4
              have := hno px py ⟨h1, h2, h3, h4⟩
              simpa using this
            have h0 := scanBBox_no_ink hall
            rw [h0] at hxb
            simp only at hxb
            omega
          obtain ⟨px, py, ⟨h1, h2, h3, h4⟩, hq⟩ := hex
          have := scanBBox_ink_le h1 h2 h3 h4 hq
          omega
      · exact absurd hok (by simp)

set_option maxRecDepth 8000 in
/-- C7 counterexample: extraction of a fully blank 16x16 cell succeeds (no
cell violates the 12x12 limit), yet the blank glyph has
xMax - xMin = -16 < 0, refuting the claim that every glyph then satisfies
0 <= width <= 12. -/
theorem size_limit_counterexample :
    extract (fun _ _ => false) 0 0 16 16 16 16 = .ok [blankChar16] ∧
    blankChar16.x_max - blankChar16.x_min < 0 :=
  ⟨rfl, by decide⟩

/-- C7 (amended): for positive cell sizes with cell height at most 16,
extraction fails exactly when some cell's scanned ink bounding box has width
or height above 12 (and the failure propagates, so the run produces no
output); when extraction succeeds, every glyph satisfies
max(0, width) <= 12 and max(0, height) <= 12, non-blank glyphs having
strictly positive width and height (blank glyphs have width and height at
most 0, not 0 <= width as originally claimed). -/
theorem size_limit_amended (ink : Pix) (rx ry rsx rsy csx csy : Int)
    (h1 : 0 < csx) (h2 : 0 < csy) (h3 : csy ≤ 16) :
    (isOkE (extract ink rx ry rsx rsy csx csy) = false ↔
      ∃ cyi cxi : Nat, cyi < (rsy.fdiv csy).toNat ∧ cxi < (rsx.fdiv csx).toNat ∧
        (12 < (scanBBox ink (rx + (cxi : Int) * csx) (ry + (cyi : Int) * csy)
            (rx + (cxi : Int) * csx + csx) (ry + (cyi : Int) * csy + csy)).x_max -
          (scanBBox ink (rx + (cxi : Int) * csx) (ry + (cyi : Int) * csy)
            (rx + (cxi : Int) * csx + csx) (ry + (cyi : Int) * csy + csy)).x_min ∨
         12 < (scanBBox ink (rx + (cxi : Int) * csx) (ry + (cyi : Int) * csy)
            (rx + (cxi : Int) * csx + csx) (ry + (cyi : Int) * csy + csy)).y_max -
          (scanBBox ink (rx + (cxi : Int) * csx) (ry + (cyi : Int) * csy)
            (rx + (cxi : Int) * csx + csx) (ry + (cyi : Int) * csy + csy)).y_min)) ∧
    (∀ e : PyErr, extract ink rx ry rsx rsy csx csy = .error e →
      pack_font_core ink rx ry rsx rsy csx csy = .error e) ∧
    (∀ l, extract ink rx ry rsx rsy csx csy = .ok l → ∀ c ∈ l,
      max 0 (c.x_max - c.x_min) ≤ 12 ∧ max 0 (c.y_max - c.y_min) ≤ 12 ∧
      (c.is_blank = false → 0 < c.x_max - c.x_min ∧ 0 < c.y_max - c.y_min)) := by
  refine ⟨?_, ?_, ?_⟩
  · rw [extract, extractCells_isOk]
    constructor
    · intro h
      obtain ⟨p, hp, hfail⟩ := List.all_eq_false.mp h
      obtain ⟨cyi, cxi, hcy, hcx, rfl⟩ := mem_cellRects.mp hp
      refine ⟨cyi, cxi, hcy, hcx, ?_⟩
      have hfail' : isOkE (mkChar ink (rx + (cxi : Int) * csx)
          (ry + (cyi : Int) * csy) csx csy) = false := by
        simpa using hfail
      exact (mkChar_isOk_iff h1 h2 h3).mp hfail'
    · rintro ⟨cyi, cxi, hcy, hcx, hbig⟩
      refine List.all_eq_false.mpr ⟨(rx + (cxi : Int) * csx, ry + (cyi : Int) * csy),
        mem_cellRects.mpr ⟨cyi, cxi, hcy, hcx, rfl⟩, ?_⟩
      have := (mkChar_isOk_iff h1 h2 h3).mpr hbig
      simpa using this
  · intro e he
    rw [pack_font_core, he]
    rfl
  · intro l hok c hc
    rw [extract] at hok
    obtain ⟨hlen, hget⟩ := extractCells_ok_getD hok
    obtain ⟨i, hi, rfl⟩ := List.mem_iff_getElem.mp hc
    have hi' : i < (cellRects rx ry csx csy (rsx.fdiv csx).toNat
        (rsy.fdiv csy).toNat).length := by omega
    have hcell := hget i hi'
    have hgd : l.getD i default = l[i] := List.getD_eq_getElem l default hi
    rw [hgd] at hcell
    by_cases hbl : l[i].is_blank = true
    · obtain ⟨hw, hh⟩ := mkChar_ok_blank hcell hbl h1 h2
      exact ⟨by omega, by omega, fun hnb => absurd hbl (by rw [hnb]; exact Bool.false_ne_true)⟩
    · have hbl' : l[i].is_blank = false := by
        cases h : l[i].is_blank
        · rfl
        · exact absurd h hbl
      obtain ⟨-, -, -, -, -, -, -, -, -, -, -, -, -, -, -, hlt, hw12, hh12, -, -, -, -, -,
        -, -⟩ := mkChar_ok_nonblank hcell hbl'
      refine ⟨by omega, by omega, fun _ => ⟨by omega, ?_⟩⟩
      have : ¬(l[i].y_max ≤ l[i].y_min) := by
        intro hy
        have : l[i].is_blank = true := by
          simp [Char.is_blank]
          omega
        exact hbl this
      omega

set_option maxRecDepth 8000 in
/-- C7 witness: the amended statement's glyph-bounds part instantiated at the
blank 16x16 grid. -/
theorem size_limit_amended_witness :
    max 0 (blankChar16.x_max - blankChar16.x_min) ≤ 12 ∧
    max 0 (blankChar16.y_max - blankChar16.y_min) ≤ 12 ∧
    (blankChar16.is_blank = false → 0 < blankChar16.x_max - blankChar16.x_min ∧
      0 < blankChar16.y_max - blankChar16.y_min) :=
  (size_limit_amended (fun _ _ => false) 0 0 16 16 16 16 (by norm_num) (by norm_num)
    (by norm_num)).2.2 [blankChar16] rfl blankChar16 (List.mem_singleton.mpr rfl)

/-- C9: for positive region and cell sizes, successful extraction yields
exactly floor(width/cellWidth) * floor(height/cellHeight) glyphs in
row-major order: the glyph at sequence index cy * cellCountX + cx is the one
extracted from the cell with origin (x + cx * cellWidth, y + cy * cellHeight). -/
theorem extract_grid (ink : Pix) (rx ry rsx rsy csx csy : Int)
    (h1 : 0 < csx) (h2 : 0 < csy) (h3 : 0 < rsx) (h4 : 0 < rsy)
    (l : List Char) (hok : extract ink rx ry rsx rsy csx csy = .ok l) :
    l.length = (rsy.fdiv csy).toNat * (rsx.fdiv csx).toNat ∧
    ∀ cyi cxi : Nat, cyi < (rsy.fdiv csy).toNat → cxi < (rsx.fdiv csx).toNat →
      mkChar ink (rx + (cxi : Int) * csx) (ry + (cyi : Int) * csy) csx csy =
        .ok (l.getD (cyi * (rsx.fdiv csx).toNat + cxi) default) := by
  rw [extract] at hok
  obtain ⟨hlen, hget⟩ := extractCells_ok_getD hok
  refine ⟨by rw [hlen, cellRects_length], fun cyi cxi hcy hcx => ?_⟩
  have hidx : cyi * (rsx.fdiv csx).toNat + cxi <
      (cellRects rx ry csx csy (rsx.fdiv csx).toNat (rsy.fdiv csy).toNat).length := by
    rw [cellRects_length]
    have hstep : (cyi + 1) * (rsx.fdiv csx).toNat ≤
        (rsy.fdiv csy).toNat * (rsx.fdiv csx).toNat :=
      Nat.mul_le_mul_right _ hcy
    calc cyi * (rsx.fdiv csx).toNat + cxi
        < cyi * (rsx.fdiv csx).toNat + (rsx.fdiv csx).toNat := by omega
      _ = (cyi + 1) * (rsx.fdiv csx).toNat := by ring
      _ ≤ (rsy.fdiv csy).toNat * (rsx.fdiv csx).toNat := hstep
  have := hget _ hidx
  rw [cellRects_getD hcy hcx] at this
  simpa using this

/-- C9 witness: the grid statement instantiated at a blank 4x4 region cut
into four 2x2 cells. -/
theorem extract_grid_witness :
    ([cellA, cellB, cellC, cellD] : List Char).length =
      ((4:Int).fdiv 2).toNat * ((4:Int).fdiv 2).toNat ∧
    ∀ cyi cxi : Nat, cyi < ((4:Int).fdiv 2).toNat → cxi < ((4:Int).fdiv 2).toNat →
      mkChar (fun _ _ => false) (0 + (cxi : Int) * 2) (0 + (cyi : Int) * 2) 2 2 =
        .ok (([cellA, cellB, cellC, cellD] : List Char).getD
          (cyi * ((4:Int).fdiv 2).toNat + cxi) default) :=
  extract_grid (fun _ _ => false) 0 0 4 4 2 2 (by norm_num) (by norm_num) (by norm_num)
    (by norm_num) [cellA, cellB, cellC, cellD] rfl

/-- C10: for every cell of positive size and height at most 16, glyph
construction never fails an assert, and every non-blank glyph has an ink
pixel in its leftmost and in its rightmost ink column, both edge extents
non-empty and contained in the ink box row range, and all the 4-bit-range
assert conditions hold. -/
theorem extents_asserts_safe (ink : Pix) (x0 y0 sx sy : Int)
    (hsx : 0 < sx) (hsy : 0 < sy) (h16 : sy ≤ 16) :
    mkChar ink x0 y0 sx sy ≠ .error .assertionError ∧
    (∀ c : Char, mkChar ink x0 y0 sx sy = .ok c → c.is_blank = false →
      (∃ py : Int, c.y_min ≤ py ∧ py < c.y_max ∧ ink c.x_min py = true) ∧
      (∃ py : Int, c.y_min ≤ py ∧ py < c.y_max ∧ ink (c.x_max - 1) py = true) ∧
      c.y_min ≤ c.y_min_first ∧ c.y_min_first < c.y_max_first ∧
      c.y_max_first ≤ c.y_max ∧
      c.y_min ≤ c.y_min_last ∧ c.y_min_last < c.y_max_last ∧ c.y_max_last ≤ c.y_max ∧
      (0 ≤ c.x_max - c.x_min ∧ c.x_max - c.x_min < 16) ∧
      (0 ≤ c.y_max - c.y_min ∧ c.y_max - c.y_min < 16) ∧
      (0 ≤ c.y_min_first - c.y_min ∧ c.y_min_first - c.y_min < 16) ∧
      (0 ≤ c.y_max_first - c.y_min ∧ c.y_max_first - c.y_min < 16) ∧
      (0 ≤ c.y_min_last - c.y_min ∧ c.y_min_last - c.y_min < 16) ∧
      (0 ≤ c.y_max_last - c.y_min ∧ c.y_max_last - c.y_min < 16) ∧
      (0 ≤ c.y_min - y0 ∧ c.y_min - y0 < 16)) := by
  constructor
  · intro hbad
    simp only [mkChar] at hbad
    split at hbad
    · exact absurd hbad (by simp)
    · rename_i hxb
      split at hbad
      · simp at hbad
      · rename_i hsize
        split at hbad
        · exact absurd hbad (by simp)
        · rename_i hassert
          push_neg at hsize
          obtain ⟨-, -, -, -, -, -, -, -, -, -, -, a1, a2, a3, a4, a5, a6, a7⟩ :=
            mkChar_asserts ink x0 y0 sx sy hsx hsy h16 (by omega) hsize.1 hsize.2
          exact hassert ⟨a1, a2, a3, a4, a5, a6, a7⟩
  · intro c hok hnb
    obtain ⟨h1, h2, h3, h4, h5, h6, hxmin, hxmax, hymin, hymax, hf1, hf2, hl1, hl2,
      hrows, hlt, hw12, hh12, a1, a2, a3, a4, a5, a6, a7⟩ := mkChar_ok_nonblank hok hnb
    have hlt' : (scanBBox ink x0 y0 (x0 + sx) (y0 + sy)).x_min <
        (scanBBox ink x0 y0 (x0 + sx) (y0 + sy)).x_max := by
      rw [hxmin, hxmax] at hlt
      exact hlt
    have hw12' : (scanBBox ink x0 y0 (x0 + sx) (y0 + sy)).x_max -
        (scanBBox ink x0 y0 (x0 + sx) (y0 + sy)).x_min ≤ 12 := by
      rw [hxmin, hxmax] at hw12
      exact hw12
    have hh12' : (scanBBox ink x0 y0 (x0 + sx) (y0 + sy)).y_max -
        (scanBBox ink x0 y0 (x0 + sx) (y0 + sy)).y_min ≤ 12 := by
      rw [hymin, hymax] at hh12
      exact hh12
    obtain ⟨ex1, ex2, e1, e2, e3, e4, e5, e6, -, -, -, -, -, -, -, -, -, -⟩ :=
      mkChar_asserts ink x0 y0 sx sy hsx hsy h16 hlt' hw12' hh12'
    refine ⟨?_, ?_, ?_, ?_, ?_, ?_, ?_, ?_, a1, a2, a3, a4, a5, a6, a7⟩
    · rw [hymin, hymax, hxmin]
      exact ex1
    · rw [hymin, hymax, hxmax]
      exact ex2
    · rw [hymin, hf1, hxmin]
      exact e1
    · rw [hf1, hf2, hxmin]
      exact e2
    · rw [hf2, hymax, hxmin]
      exact e3
    · rw [hymin, hl1, hxmax]
      exact e4
    · rw [hl1, hl2, hxmax]
      exact e5
    · rw [hl2, hymax, hxmax]
      exact e6

/-- C10 witness: a cell of height 12 with a single ink pixel never reaches
the assert error branch. -/
theorem extents_asserts_safe_witness :
    mkChar (fun x y : Int => decide (x = 0) && decide (y = 0)) 0 0 8 12 ≠
      .error .assertionError :=
  (extents_asserts_safe (fun x y : Int => decide (x = 0) && decide (y = 0)) 0 0 8 12
    (by norm_num) (by norm_num) (by norm_num)).1

end FontPack
